import Mathlib

/-!
Verification development for the `yd` YAML diff tool (`src/yd/yamldiff.py`).

The document model is a shallow embedding of the Python values the engine
consumes (parsed YAML): mappings with string keys and preserved insertion
order, sequences, and the scalar types `str`, `int`, `bool`, `None`.
Mappings and sequences are modelled with dedicated mutual inductives
(`NodeMap`, `NodeList`) so every engine function can be defined by
structural recursion and evaluated by the kernel; `toList` / `pairs`
convert to ordinary lists for the lemmas.

Python `dict`s cannot contain a duplicate key; the embedding expresses
that invariant as the decidable predicate `wf_node` where a theorem needs
it.

Functions that can raise in Python (`_get_sort_key` raises `StopIteration`
on an empty dict, which propagates out of `sorted` and hence out of
`normalize_data` and `compare`) are embedded as `Option`-valued functions,
with `none` standing for an uncaught exception.
-/

namespace Yd

mutual
inductive Node where
  | str (s : String)
  | int (n : Int)
  | bool (b : Bool)
  | null
  | list (l : NodeList)
  | map (m : NodeMap)
inductive NodeList where
  | nil
  | cons (head : Node) (tail : NodeList)
inductive NodeMap where
  | nil
  | cons (key : String) (val : Node) (tail : NodeMap)
end

mutual
/-- Structural size of a node, used as fuel bound for the comparator. -/
def Node.size : Node → Nat
  | .str _ => 1
  | .int _ => 1
  | .bool _ => 1
  | .null => 1
  | .list l => 1 + NodeList.size l
  | .map m => 1 + NodeMap.size m
def NodeList.size : NodeList → Nat
  | .nil => 1
  | .cons h t => 1 + Node.size h + NodeList.size t
def NodeMap.size : NodeMap → Nat
  | .nil => 1
  | .cons _ v t => 1 + Node.size v + NodeMap.size t
end

/-- The elements of a sequence node, as an ordinary list. -/
def NodeList.toList : NodeList → List Node
  | .nil => []
  | .cons h t => h :: NodeList.toList t

/-- Rebuild a sequence node from an ordinary list. -/
def mkNodeList : List Node → NodeList
  | [] => .nil
  | h :: t => .cons h (mkNodeList t)

/-- The key/value pairs of a mapping node, in insertion order. -/
def NodeMap.pairs : NodeMap → List (String × Node)
  | .nil => []
  | .cons k v t => (k, v) :: NodeMap.pairs t

/-- Rebuild a mapping node from an ordered pair list. -/
def mkNodeMap : List (String × Node) → NodeMap
  | [] => .nil
  | (k, v) :: t => .cons k v (mkNodeMap t)

theorem toList_mkNodeList (l : List Node) : (mkNodeList l).toList = l := by
  induction l with
  | nil => rfl
  | cons h t ih => simp [mkNodeList, NodeList.toList, ih]

theorem pairs_mkNodeMap (l : List (String × Node)) : (mkNodeMap l).pairs = l := by
  induction l with
  | nil => rfl
  | cons h t ih => cases h; simp [mkNodeMap, NodeMap.pairs, ih]

theorem mkNodeList_toList : ∀ l : NodeList, mkNodeList l.toList = l
  | .nil => rfl
  | .cons h t => by simp [NodeList.toList, mkNodeList, mkNodeList_toList t]

theorem mkNodeMap_pairs : ∀ m : NodeMap, mkNodeMap m.pairs = m
  | .nil => rfl
  | .cons k v t => by simp [NodeMap.pairs, mkNodeMap, mkNodeMap_pairs t]

theorem size_pos (x : Node) : 0 < x.size := by
  cases x <;> simp [Node.size]

theorem size_listSize : ∀ l : NodeList, ∀ e ∈ l.toList, e.size < NodeList.size l
  | .nil => by simp [NodeList.toList]
  | .cons h t => by
      intro e he
      simp only [NodeList.toList, List.mem_cons] at he
      rcases he with he | he
      · subst he; simp [NodeList.size]; omega
      · have := size_listSize t e he
        simp [NodeList.size]; omega

theorem size_mem_toList {e : Node} {l : NodeList} (h : e ∈ l.toList) :
    e.size < (Node.list l).size := by
  have := size_listSize l e h
  simp [Node.size]; omega

theorem size_mapSize : ∀ m : NodeMap, ∀ k v, (k, v) ∈ m.pairs → v.size < NodeMap.size m
  | .nil => by simp [NodeMap.pairs]
  | .cons k' v' t => by
      intro k v hv
      simp only [NodeMap.pairs, List.mem_cons] at hv
      rcases hv with hv | hv
      · cases hv; simp [NodeMap.size]; omega
      · have := size_mapSize t k v hv
        simp [NodeMap.size]; omega

theorem size_mem_pairs {k : String} {v : Node} {m : NodeMap} (h : (k, v) ∈ m.pairs) :
    v.size < (Node.map m).size := by
  have := size_mapSize m k v h
  simp [Node.size]; omega

theorem size_mkNodeList (l : List Node) :
    (Node.list (mkNodeList l)).size = 2 + (l.map Node.size).sum + l.length := by
  induction l with
  | nil => simp [mkNodeList, Node.size, NodeList.size]
  | cons h t ih =>
      simp [mkNodeList, Node.size, NodeList.size] at ih ⊢
      omega

/-- `ChangeType` from the source: the three kinds of change record. -/
inductive ChangeType where
  | added
  | removed
  | modified
deriving DecidableEq

/-- `DiffItem` from the source.  The Python class stores `None` for an
absent value; the embedding uses `Option Node` (so an absent value and an
explicit YAML `null` value stay distinguishable in statements). -/
structure DiffItem where
  change_type : ChangeType
  path : List String
  old_value : Option Node
  new_value : Option Node

/-- Constructor tag, standing for Python `type(x)`.  Python treats `bool`
and `int` as distinct types here (`type(True) != type(1)`), which matches
the distinct constructors. -/
def tagOf : Node → Nat
  | .str _ => 0
  | .int _ => 1
  | .bool _ => 2
  | .null => 3
  | .list _ => 4
  | .map _ => 5

/-- Python `==`/`!=` on two scalars of the same type. -/
def scalarEq : Node → Node → Bool
  | .str a, .str b => a = b
  | .int a, .int b => a = b
  | .bool a, .bool b => a = b
  | .null, .null => true
  | _, _ => false

/-- Association-list lookup, first match wins (Python `d[k]` / `k in d`). -/
def alookup {α : Type} : List (String × α) → String → Option α
  | [], _ => none
  | (k, v) :: t, k' => if k = k' then some v else alookup t k'

/-- Python `k in d`. -/
def containsKey {α : Type} (l : List (String × α)) (k : String) : Bool :=
  (alookup l k).isSome

/-- The key list of a mapping's pair list. -/
def keysOf {α : Type} (l : List (String × α)) : List String := l.map Prod.fst

/-- Python `set(ks1) == set(ks2)` on two key lists. -/
def sameKeySet (ks₁ ks₂ : List String) : Bool :=
  ks₁.all (fun k => ks₂.contains k) && ks₂.all (fun k => ks₁.contains k)

/-- No duplicate entries in a key list. -/
def nodupKeys : List String → Bool
  | [] => true
  | k :: ks => !ks.contains k && nodupKeys ks

mutual
/-- Well-formedness: every mapping in the tree has pairwise distinct keys
(automatic for values coming from Python dicts). -/
def wf_node : Node → Bool
  | .str _ => true
  | .int _ => true
  | .bool _ => true
  | .null => true
  | .list l => wf_nodeList l
  | .map m => nodupKeys (keysOf m.pairs) && wf_nodeMap m
def wf_nodeList : NodeList → Bool
  | .nil => true
  | .cons h t => wf_node h && wf_nodeList t
def wf_nodeMap : NodeMap → Bool
  | .nil => true
  | .cons _ v t => wf_node v && wf_nodeMap t
end

mutual
/-- Python `repr` of a value (string escaping elided: the strings this
development evaluates it on contain no quote or backslash characters). -/
def pyRepr : Node → String
  | .str s => "\x27" ++ s ++ "\x27"
  | .int n => toString n
  | .bool b => if b then "True" else "False"
  | .null => "None"
  | .list l => "[" ++ String.intercalate ", " (pyReprList l) ++ "]"
  | .map m => "\x7b" ++ String.intercalate ", " (pyReprMap m) ++ "\x7d"
def pyReprList : NodeList → List String
  | .nil => []
  | .cons h t => pyRepr h :: pyReprList t
def pyReprMap : NodeMap → List String
  | .nil => []
  | .cons k v t => ("\x27" ++ k ++ "\x27: " ++ pyRepr v) :: pyReprMap t
end

/-- Python `str` of a value (containers delegate to `repr`). -/
def pyStr : Node → String
  | .str s => s
  | x => pyRepr x

/-- `YAMLDiff._get_sort_key` (yamldiff.py:889-898).  On an empty dict the
Python code evaluates `next(iter(item.keys()))`, raising `StopIteration`;
that branch is `none`. -/
def get_sort_key (item : Node) : Option String :=
  match item with
  | .map m =>
      match alookup m.pairs "name" with
      | some v => some (pyStr v)
      | none =>
          match m.pairs with
          | [] => none
          | (_, v) :: _ => some (pyStr v)
  | x => some (pyStr x)

/-- `YAMLDiff._should_sort_list` (yamldiff.py:866-887). -/
def should_sort_list (data : List Node) : Bool :=
  match data with
  | [] => false
  | first :: rest =>
      match first with
      | .map m =>
          let firstKeys := keysOf m.pairs
          if firstKeys.isEmpty then false
          else if firstKeys.contains "name" then true
          else rest.all (fun item =>
            match item with
            | .map m' => sameKeySet (keysOf m'.pairs) firstKeys
            | _ => false)
      | _ => false

/-- Lexicographic code-point comparison of character lists, the order
Python uses on `str`. -/
def charsLe : List Char → List Char → Bool
  | [], _ => true
  | _ :: _, [] => false
  | a :: as, b :: bs =>
    if a < b then true
    else if b < a then false
    else charsLe as bs

/-- Python `s1 <= s2` on strings. -/
def strLe (a b : String) : Bool := charsLe a.data b.data

theorem charsLe_total : ∀ a b : List Char, charsLe a b = true ∨ charsLe b a = true
  | [], _ => Or.inl rfl
  | _ :: _, [] => Or.inr rfl
  | a :: as, b :: bs => by
      by_cases h1 : a < b
      · exact Or.inl (by simp [charsLe, h1])
      · by_cases h2 : b < a
        · exact Or.inr (by simp [charsLe, h2])
        · rcases charsLe_total as bs with h | h
          · exact Or.inl (by simp [charsLe, h1, h2, h])
          · exact Or.inr (by simp [charsLe, h1, h2, h])

theorem charsLe_trans : ∀ a b c : List Char,
    charsLe a b = true → charsLe b c = true → charsLe a c = true
  | [], _, _, _, _ => rfl
  | a :: as, [], c, h, _ => by simp [charsLe] at h
  | a :: as, b :: bs, [], _, h => by simp [charsLe] at h
  | a :: as, b :: bs, c :: cs, h₁, h₂ => by
      simp only [charsLe] at h₁ h₂ ⊢
      by_cases hab : a < b
      · by_cases hbc : b < c
        · simp [lt_trans hab hbc]
        · by_cases hcb : c < b
          · rw [if_neg hbc, if_pos hcb] at h₂; exact absurd h₂ (by simp)
          · have : b = c := le_antisymm (not_lt.mp hcb) (not_lt.mp hbc)
            subst this; simp [hab]
      · by_cases hba : b < a
        · rw [if_neg hab, if_pos hba] at h₁; exact absurd h₁ (by simp)
        · have hab' : a = b := le_antisymm (not_lt.mp hba) (not_lt.mp hab)
          subst hab'
          rw [if_neg hab, if_neg hba] at h₁
          by_cases hac : a < c
          · simp [hac]
          · by_cases hca : c < a
            · rw [if_neg hac, if_pos hca] at h₂; exact absurd h₂ (by simp)
            · rw [if_neg hac, if_neg hca] at h₂ ⊢
              exact charsLe_trans as bs cs h₁ h₂

theorem charsLe_antisymm : ∀ a b : List Char,
    charsLe a b = true → charsLe b a = true → a = b
  | [], [], _, _ => rfl
  | [], _ :: _, _, h => by simp [charsLe] at h
  | _ :: _, [], h, _ => by simp [charsLe] at h
  | a :: as, b :: bs, h₁, h₂ => by
      simp only [charsLe] at h₁ h₂
      by_cases hab : a < b
      · rw [if_neg (lt_asymm hab), if_pos hab] at h₂
        exact absurd h₂ (by simp)
      · by_cases hba : b < a
        · rw [if_neg hab, if_pos hba] at h₁
          exact absurd h₁ (by simp)
        · have hab' : a = b := le_antisymm (not_lt.mp hba) (not_lt.mp hab)
          subst hab'
          rw [if_neg hab, if_neg hba] at h₁ h₂
          rw [charsLe_antisymm as bs h₁ h₂]

theorem strLe_total (a b : String) : strLe a b = true ∨ strLe b a = true :=
  charsLe_total a.data b.data

theorem strLe_trans {a b c : String} (h₁ : strLe a b = true) (h₂ : strLe b c = true) :
    strLe a c = true :=
  charsLe_trans a.data b.data c.data h₁ h₂

theorem strLe_antisymm {a b : String} (h₁ : strLe a b = true) (h₂ : strLe b a = true) :
    a = b :=
  String.ext (charsLe_antisymm a.data b.data h₁ h₂)

/-- Insert `x` after every already-placed element whose key is `≤` its
key (so elements with equal keys keep their arrival order). -/
def insertSorted {α : Type} (key : α → String) (x : α) : List α → List α
  | [] => [x]
  | y :: ys => if strLe (key y) (key x) then y :: insertSorted key x ys else x :: y :: ys

/-- Python `sorted(l, key=key)`: ascending, stable.  Modelled as a left
fold of stable insertions. -/
def sortByKey {α : Type} (key : α → String) (l : List α) : List α :=
  l.foldl (fun acc x => insertSorted key x acc) []

/-- The order `sorted` sorts by, as a relation. -/
def keyLe {α : Type} (key : α → String) (u v : α) : Prop := strLe (key u) (key v) = true

theorem insertSorted_perm {α : Type} (key : α → String) (x : α) :
    ∀ l : List α, (insertSorted key x l).Perm (x :: l)
  | [] => List.Perm.refl _
  | y :: ys => by
      unfold insertSorted
      by_cases h : strLe (key y) (key x) = true
      · rw [if_pos h]
        exact ((insertSorted_perm key x ys).cons y).trans (List.Perm.swap x y ys)
      · rw [if_neg h]

theorem foldl_insert_perm {α : Type} (key : α → String) :
    ∀ (l acc : List α), (l.foldl (fun a x => insertSorted key x a) acc).Perm (acc ++ l)
  | [], acc => by simp
  | x :: xs, acc => by
      simp only [List.foldl_cons]
      exact (foldl_insert_perm key xs (insertSorted key x acc)).trans
        ((List.Perm.append_right xs (insertSorted_perm key x acc)).trans
          List.perm_middle.symm)

theorem sortByKey_perm {α : Type} (key : α → String) (l : List α) :
    (sortByKey key l).Perm l := by
  simpa [sortByKey] using foldl_insert_perm key l []

theorem insertSorted_sorted {α : Type} (key : α → String) (x : α) :
    ∀ l : List α, List.Sorted (keyLe key) l → List.Sorted (keyLe key) (insertSorted key x l)
  | [], _ => List.sorted_singleton x
  | y :: ys, h => by
      rw [List.sorted_cons] at h
      obtain ⟨hy, hys⟩ := h
      unfold insertSorted
      by_cases hle : strLe (key y) (key x) = true
      · rw [if_pos hle, List.sorted_cons]
        refine ⟨fun b hb => ?ha, insertSorted_sorted key x ys hys⟩
        rcases List.mem_cons.mp ((insertSorted_perm key x ys).mem_iff.mp hb) with hb' | hb'
        · simpa [keyLe, hb'] using hle
        · exact hy b hb'
      · rw [if_neg hle, List.sorted_cons]
        have hxy : strLe (key x) (key y) = true := by
          rcases strLe_total (key y) (key x) with h | h
          · exact absurd h hle
          · exact h
        refine ⟨?h1, List.sorted_cons.mpr ⟨hy, hys⟩⟩
        intro b hb
        rcases List.mem_cons.mp hb with hb | hb
        · subst hb; exact hxy
        · exact strLe_trans hxy (hy b hb)

theorem foldl_insert_sorted {α : Type} (key : α → String) :
    ∀ (l acc : List α), List.Sorted (keyLe key) acc →
      List.Sorted (keyLe key) (l.foldl (fun a x => insertSorted key x a) acc)
  | [], acc, h => h
  | x :: xs, acc, h => by
      simp only [List.foldl_cons]
      exact foldl_insert_sorted key xs _ (insertSorted_sorted key x acc h)

theorem sortByKey_sorted {α : Type} (key : α → String) (l : List α) :
    List.Sorted (keyLe key) (sortByKey key l) :=
  foldl_insert_sorted key l [] (List.sorted_nil)

theorem insertSorted_of_all_le {α : Type} (key : α → String) (x : α) :
    ∀ l : List α, (∀ y ∈ l, strLe (key y) (key x) = true) →
      insertSorted key x l = l ++ [x]
  | [], _ => rfl
  | y :: ys, h => by
      unfold insertSorted
      rw [if_pos (h y (List.mem_cons_self y ys))]
      simp [insertSorted_of_all_le key x ys (fun z hz => h z (List.mem_cons_of_mem y hz))]

theorem foldl_insert_of_sorted {α : Type} (key : α → String) :
    ∀ (l acc : List α), List.Sorted (keyLe key) (acc ++ l) →
      l.foldl (fun a x => insertSorted key x a) acc = acc ++ l
  | [], acc, _ => by simp
  | x :: xs, acc, h => by
      have hcross := (List.pairwise_append.mp h).2.2
      have hins : insertSorted key x acc = acc ++ [x] :=
        insertSorted_of_all_le key x acc
          (fun y hy => hcross y hy x (List.mem_cons_self x xs))
      simp only [List.foldl_cons, hins]
      rw [foldl_insert_of_sorted key xs (acc ++ [x]) (by simpa using h)]
      simp

/-- Sorting a list that is already ascending in its keys leaves it
unchanged (stability of Python `sorted`). -/
theorem sortByKey_of_sorted {α : Type} (key : α → String) (l : List α)
    (h : List.Sorted (keyLe key) l) : sortByKey key l = l := by
  simpa [sortByKey] using foldl_insert_of_sorted key l [] (by simpa using h)

/-- Two permutations of the same elements sort identically when keys are
pairwise distinct. -/
theorem sortByKey_eq_of_perm {α : Type} (key : α → String) (l l' : List α)
    (hperm : l.Perm l') (hdk : l.Pairwise (fun u v => key u ≠ key v)) :
    sortByKey key l = sortByKey key l' := by
  have hperm2 : (sortByKey key l).Perm (sortByKey key l') :=
    ((sortByKey_perm key l).trans hperm).trans (sortByKey_perm key l').symm
  have hne : ∀ m : List α, m.Perm l → m.Pairwise (fun u v => key u ≠ key v) := by
    intro m hm
    exact hm.symm.pairwise hdk (fun h h' => h h'.symm)
  have hsl : (sortByKey key l).Pairwise (fun u v => key u ≠ key v) :=
    hne _ (sortByKey_perm key l)
  have hsl' : (sortByKey key l').Pairwise (fun u v => key u ≠ key v) :=
    hne _ ((sortByKey_perm key l').trans hperm.symm)
  have hstrict : ∀ m : List α, List.Sorted (keyLe key) m →
      m.Pairwise (fun u v => key u ≠ key v) →
      m.Pairwise (fun u v => strLe (key u) (key v) = true ∧ key u ≠ key v) := by
    intro m hs hd
    exact hs.and hd
  have h1 := hstrict _ (sortByKey_sorted key l) hsl
  have h2 := hstrict _ (sortByKey_sorted key l') hsl'
  exact @List.eq_of_perm_of_sorted α
    (fun u v => strLe (key u) (key v) = true ∧ key u ≠ key v)
    ⟨fun a b hab hba => absurd (strLe_antisymm hab.1 hba.1) hab.2⟩
    _ _ hperm2 h1 h2

/-- Option-valued map over a list, `none` as soon as one element fails. -/
def mapO {α β : Type} (f : α → Option β) : List α → Option (List β)
  | [] => some []
  | a :: as =>
      match f a, mapO f as with
      | some b, some bs => some (b :: bs)
      | _, _ => none

theorem mapO_forall₂ {α β : Type} (f : α → Option β) :
    ∀ {l : List α} {l' : List β}, mapO f l = some l' →
      List.Forall₂ (fun a b => f a = some b) l l'
  | [], l', h => by
      simp [mapO] at h; subst h; exact List.Forall₂.nil
  | a :: as, l', h => by
      simp only [mapO] at h
      match ha : f a, ht : mapO f as with
      | some b, some bs =>
          rw [ha, ht] at h; simp at h; subst h
          exact List.Forall₂.cons ha (mapO_forall₂ f ht)
      | some b, none => rw [ha, ht] at h; simp at h
      | none, _ => rw [ha] at h; simp at h

theorem mapO_length {α β : Type} {f : α → Option β} {l : List α} {l' : List β}
    (h : mapO f l = some l') : l'.length = l.length :=
  (mapO_forall₂ f h).length_eq.symm

theorem mapO_eq_none {α β : Type} (f : α → Option β) :
    ∀ {l : List α}, mapO f l = none → ∃ a ∈ l, f a = none
  | [], h => by simp [mapO] at h
  | a :: as, h => by
      simp only [mapO] at h
      match ha : f a, ht : mapO f as with
      | some b, some bs => rw [ha, ht] at h; simp at h
      | some b, none =>
          obtain ⟨x, hx, hfx⟩ := mapO_eq_none f ht
          exact ⟨x, List.mem_cons_of_mem a hx, hfx⟩
      | none, _ => exact ⟨a, List.mem_cons_self a as, ha⟩

theorem mapO_eq_some_of_all {α β : Type} (f : α → Option β) :
    ∀ {l : List α}, (∀ a ∈ l, (f a).isSome) → ∃ l', mapO f l = some l'
  | [], _ => ⟨[], rfl⟩
  | a :: as, h => by
      obtain ⟨b, hb⟩ := Option.isSome_iff_exists.mp (h a (List.mem_cons_self a as))
      obtain ⟨bs, hbs⟩ := mapO_eq_some_of_all f (fun x hx => h x (List.mem_cons_of_mem a hx))
      exact ⟨b :: bs, by simp [mapO, hb, hbs]⟩

/-- The sequence branch of `normalize_data`, applied to the raw elements
`raw` and their already-normalized forms `nl` (in the raw order).  A
qualifying sequence is reordered by the derived keys of its raw elements;
`none` models the uncaught `StopIteration` from `_get_sort_key`. -/
def sortedListResult (raw : List Node) (nl : List Node) : Option Node :=
  if should_sort_list raw then
    match mapO get_sort_key raw with
    | none => none
    | some ks =>
        some (.list (mkNodeList ((sortByKey Prod.fst (ks.zip nl)).map Prod.snd)))
  else some (.list (mkNodeList nl))

mutual
/-- `YAMLDiff.normalize_data` (yamldiff.py:839-864).  Mappings keep key
order with values normalized; a qualifying sequence is sorted by the
derived keys of its raw elements and its elements normalized; scalars are
unchanged.  (Python sorts the raw elements first and then normalizes each
one; since the stable sort consults only the raw keys, pairing each raw
key with its element's normalized form and sorting the pairs produces the
same list, which keeps this definition structurally recursive.)  The
`path` argument of the Python method only feeds recursive calls and is
dropped. -/
def normalize_data : Node → Option Node
  | .str s => some (.str s)
  | .int n => some (.int n)
  | .bool b => some (.bool b)
  | .null => some .null
  | .map m => (normalizeMap m).map Node.map
  | .list l => (normalizeList l).bind (sortedListResult l.toList)
def normalizeList : NodeList → Option (List Node)
  | .nil => some []
  | .cons h t =>
      match normalize_data h, normalizeList t with
      | some nh, some nt => some (nh :: nt)
      | _, _ => none
def normalizeMap : NodeMap → Option NodeMap
  | .nil => some .nil
  | .cons k v t =>
      match normalize_data v, normalizeMap t with
      | some nv, some nt => some (.cons k nv nt)
      | _, _ => none
end

theorem normalizeList_forall₂ :
    ∀ (l : NodeList) (nl : List Node), normalizeList l = some nl →
      List.Forall₂ (fun e ne => normalize_data e = some ne) l.toList nl
  | .nil, nl, h => by
      simp [normalizeList] at h
      subst h; exact List.Forall₂.nil
  | .cons hd t, nl, h => by
      simp only [normalizeList] at h
      match hh : normalize_data hd, ht : normalizeList t with
      | some nh, some nt =>
          rw [hh, ht] at h
          simp at h
          subst h
          exact List.Forall₂.cons hh (normalizeList_forall₂ t nt ht)
      | some nh, none => rw [hh, ht] at h; simp at h
      | none, _ => rw [hh] at h; simp at h

theorem normalizeMap_forall₂ :
    ∀ (m m' : NodeMap), normalizeMap m = some m' →
      List.Forall₂ (fun kv kv' => kv'.1 = kv.1 ∧ normalize_data kv.2 = some kv'.2)
        m.pairs m'.pairs
  | .nil, m', h => by
      simp [normalizeMap] at h
      subst h; exact List.Forall₂.nil
  | .cons k v t, m', h => by
      simp only [normalizeMap] at h
      match hv : normalize_data v, ht : normalizeMap t with
      | some nv, some nt =>
          rw [hv, ht] at h
          simp at h
          subst h
          exact List.Forall₂.cons ⟨rfl, hv⟩ (normalizeMap_forall₂ t nt ht)
      | some nv, none => rw [hv, ht] at h; simp at h
      | none, _ => rw [hv] at h; simp at h

theorem keysOf_forall₂ {ps ps' : List (String × Node)}
    (h : List.Forall₂ (fun kv kv' => kv'.1 = kv.1 ∧ normalize_data kv.2 = some kv'.2) ps ps') :
    keysOf ps' = keysOf ps := by
  induction h with
  | nil => rfl
  | cons hh _ ih => simp only [keysOf, List.map_cons] at ih ⊢; rw [ih, hh.1]

theorem normalizeMap_keys {m m' : NodeMap} (h : normalizeMap m = some m') :
    keysOf m'.pairs = keysOf m.pairs :=
  keysOf_forall₂ (normalizeMap_forall₂ m m' h)

/-- Classification of a node used by `_should_sort_list`: a mapping with
its key list, or a non-mapping. -/
def shapeClass : Node → Option (List String)
  | .map m => some (keysOf m.pairs)
  | _ => none

theorem norm_shapeClass {e e' : Node} (h : normalize_data e = some e') :
    shapeClass e' = shapeClass e := by
  cases e with
  | str s => simp [normalize_data] at h; subst h; rfl
  | int n => simp [normalize_data] at h; subst h; rfl
  | bool b => simp [normalize_data] at h; subst h; rfl
  | null => simp [normalize_data] at h; subst h; rfl
  | list l =>
      simp only [normalize_data, Option.bind_eq_some] at h
      obtain ⟨nl, _, h⟩ := h
      unfold sortedListResult at h
      by_cases hs : should_sort_list l.toList
      · rw [if_pos hs] at h
        match hk : mapO get_sort_key l.toList with
        | none => rw [hk] at h; simp at h
        | some ks => rw [hk] at h; simp at h; subst h; rfl
      · rw [if_neg hs] at h; simp at h; subst h; rfl
  | map m =>
      simp only [normalize_data] at h
      match hm : normalizeMap m with
      | none => rw [hm] at h; simp at h
      | some m' =>
          rw [hm] at h; simp at h; subst h
          simp [shapeClass, normalizeMap_keys hm]

theorem should_sort_head_bridge (x : Node) (t : List Node) :
    should_sort_list (x :: t) =
    (match shapeClass x with
      | none => false
      | some ks =>
          if ks.isEmpty then false
          else if ks.contains "name" then true
          else t.all (fun item =>
            match item with
            | Node.map m' => sameKeySet (keysOf m'.pairs) ks
            | _ => false)) := by
  cases x <;> rfl

theorem all_congr_of_shape {t₁ t₂ : List Node} (g : Node → Bool)
    (hg : ∀ x y, shapeClass x = shapeClass y → g x = g y)
    (h : List.Forall₂ (fun a b => shapeClass a = shapeClass b) t₁ t₂) :
    t₁.all g = t₂.all g := by
  induction h with
  | nil => rfl
  | cons hxy _ ih => simp only [List.all_cons, hg _ _ hxy, ih]

theorem should_sort_congr :
    ∀ {l₁ l₂ : List Node}, List.Forall₂ (fun a b => shapeClass a = shapeClass b) l₁ l₂ →
      should_sort_list l₁ = should_sort_list l₂ := by
  intro l₁ l₂ h
  cases h with
  | nil => rfl
  | @cons a b t₁ t₂ hab ht =>
      rw [should_sort_head_bridge, should_sort_head_bridge, hab]
      cases hsc : shapeClass b with
      | none => rfl
      | some ks =>
          have hall := all_congr_of_shape
            (fun item => match item with
              | Node.map m' => sameKeySet (keysOf m'.pairs) ks
              | _ => false)
            (by
              intro x y hxy
              cases x <;> cases y <;> simp_all [shapeClass])
            ht
          simp only [hall]

theorem sizeNodeList_toList : ∀ l : NodeList,
    NodeList.size l = 1 + l.toList.length + (l.toList.map Node.size).sum
  | .nil => by simp [NodeList.size, NodeList.toList]
  | .cons h t => by
      simp [NodeList.size, NodeList.toList, sizeNodeList_toList t]
      omega

theorem forall₂_mem_right {α β : Type} {R : α → β → Prop} :
    ∀ {l : List α} {l' : List β}, List.Forall₂ R l l' → ∀ b ∈ l', ∃ a ∈ l, R a b := by
  intro l l' h
  induction h with
  | nil => simp
  | @cons x y tx ty hxy _ ih =>
      intro b hb
      rcases List.mem_cons.mp hb with hb | hb
      · exact ⟨x, List.mem_cons_self x tx, hb ▸ hxy⟩
      · obtain ⟨a, ha, hr⟩ := ih b hb
        exact ⟨a, List.mem_cons_of_mem x ha, hr⟩

theorem map_snd_zip_full {α β : Type} :
    ∀ (l₁ : List α) (l₂ : List β), l₁.length = l₂.length →
      (l₁.zip l₂).map Prod.snd = l₂
  | [], [], _ => rfl
  | [], _ :: _, h => by simp at h
  | _ :: _, [], h => by simp at h
  | a :: as, b :: bs, h => by
      simp only [List.zip_cons_cons, List.map_cons]
      rw [map_snd_zip_full as bs (by simpa using h)]

/-- The two possible outcomes of the sequence branch. -/
theorem sortedListResult_cases {raw nl : List Node} {y : Node}
    (h : sortedListResult raw nl = some y) :
    (should_sort_list raw = true ∧ ∃ ks, mapO get_sort_key raw = some ks ∧
        y = .list (mkNodeList ((sortByKey Prod.fst (ks.zip nl)).map Prod.snd))) ∨
    (should_sort_list raw = false ∧ y = .list (mkNodeList nl)) := by
  unfold sortedListResult at h
  by_cases hs : should_sort_list raw
  · rw [if_pos hs] at h
    cases hk : mapO get_sort_key raw with
    | none => rw [hk] at h; exact absurd h (by simp)
    | some ks =>
        rw [hk] at h
        injection h with h2
        exact Or.inl ⟨hs, ks, rfl, h2.symm⟩
  · rw [if_neg hs] at h
    injection h with h2
    exact Or.inr ⟨by simpa using hs, h2.symm⟩

/-- The elements of a normalized sequence are a permutation of the
elementwise-normalized raw elements. -/
theorem sortedListResult_perm {raw nl : List Node} {y : Node}
    (hlen : raw.length = nl.length)
    (h : sortedListResult raw nl = some y) :
    ∃ l', y = Node.list l' ∧ l'.toList.Perm nl := by
  rcases sortedListResult_cases h with ⟨_, ks, hks, hy⟩ | ⟨_, hy⟩
  · subst hy
    have hkl : ks.length = nl.length := by rw [mapO_length hks, hlen]
    have hp : ((sortByKey Prod.fst (ks.zip nl)).map Prod.snd).Perm ((ks.zip nl).map Prod.snd) :=
      (sortByKey_perm Prod.fst (ks.zip nl)).map Prod.snd
    rw [map_snd_zip_full ks nl hkl] at hp
    exact ⟨_, rfl, by rw [toList_mkNodeList]; exact hp⟩
  · subst hy
    exact ⟨_, rfl, by rw [toList_mkNodeList]⟩

mutual
theorem norm_size : ∀ (x y : Node), normalize_data x = some y → y.size = x.size
  | .str s, y, h => by simp [normalize_data] at h; subst h; rfl
  | .int n, y, h => by simp [normalize_data] at h; subst h; rfl
  | .bool b, y, h => by simp [normalize_data] at h; subst h; rfl
  | .null, y, h => by simp [normalize_data] at h; subst h; rfl
  | .map m, y, h => by
      simp only [normalize_data] at h
      match hm : normalizeMap m with
      | none => rw [hm] at h; simp at h
      | some m' =>
          rw [hm] at h; simp at h; subst h
          simp [Node.size, normMap_size m m' hm]
  | .list l, y, h => by
      simp only [normalize_data, Option.bind_eq_some] at h
      obtain ⟨nl, hl, hs⟩ := h
      have hlsz := normList_size l nl hl
      have hlen : l.toList.length = nl.length := hlsz.2.symm
      obtain ⟨l', hy, hperm⟩ := sortedListResult_perm hlen hs
      subst hy
      have h1 : (Node.list l').size = 1 + l'.toList.length + (l'.toList.map Node.size).sum + 1 := by
        simp [Node.size, sizeNodeList_toList]
        omega
      have h2 : (Node.list l).size = 1 + l.toList.length + (l.toList.map Node.size).sum + 1 := by
        simp [Node.size, sizeNodeList_toList]
        omega
      rw [h1, h2, hperm.length_eq, (hperm.map Node.size).sum_eq, hlsz.1, hlen]
theorem normList_size : ∀ (l : NodeList) (nl : List Node), normalizeList l = some nl →
    (nl.map Node.size).sum = (l.toList.map Node.size).sum ∧ nl.length = l.toList.length
  | .nil, nl, h => by simp [normalizeList] at h; subst h; simp [NodeList.toList]
  | .cons hd t, nl, h => by
      simp only [normalizeList] at h
      match hh : normalize_data hd, ht : normalizeList t with
      | some nh, some nt =>
          rw [hh, ht] at h; simp at h; subst h
          have := normList_size t nt ht
          simp [NodeList.toList, norm_size hd nh hh, this.1, this.2]
      | some nh, none => rw [hh, ht] at h; simp at h
      | none, _ => rw [hh] at h; simp at h
theorem normMap_size : ∀ (m m' : NodeMap), normalizeMap m = some m' →
    NodeMap.size m' = NodeMap.size m
  | .nil, m', h => by simp [normalizeMap] at h; subst h; rfl
  | .cons k v t, m', h => by
      simp only [normalizeMap] at h
      match hv : normalize_data v, ht : normalizeMap t with
      | some nv, some nt =>
          rw [hv, ht] at h; simp at h; subst h
          simp [NodeMap.size, norm_size v nv hv, normMap_size t nt ht]
      | some nv, none => rw [hv, ht] at h; simp at h
      | none, _ => rw [hv] at h; simp at h
end

/-- Every element of a normalized sequence is the normalization of a raw
element. -/
theorem norm_list_child {l : NodeList} {l' : NodeList}
    (h : normalize_data (Node.list l) = some (Node.list l')) :
    ∀ e' ∈ l'.toList, ∃ e ∈ l.toList, normalize_data e = some e' := by
  intro e' he'
  simp only [normalize_data, Option.bind_eq_some] at h
  obtain ⟨nl, hl, hs⟩ := h
  have hf := normalizeList_forall₂ l nl hl
  have hlen : l.toList.length = nl.length := hf.length_eq
  obtain ⟨l'', hy, hperm⟩ := sortedListResult_perm hlen hs
  obtain rfl : l'' = l' := by injection hy with h2; exact h2.symm
  exact forall₂_mem_right hf e' (hperm.mem_iff.mp he')

/-- The normalization of a sequence is a sequence; of a mapping, a
mapping (with `normalizeMap`). -/
theorem norm_list_shape {l : NodeList} {y : Node}
    (h : normalize_data (Node.list l) = some y) : ∃ l', y = Node.list l' := by
  simp only [normalize_data, Option.bind_eq_some] at h
  obtain ⟨nl, _, hs⟩ := h
  rcases sortedListResult_cases hs with ⟨_, _, _, hy⟩ | ⟨_, hy⟩ <;> exact ⟨_, hy⟩

theorem norm_map_shape {m : NodeMap} {y : Node}
    (h : normalize_data (Node.map m) = some y) :
    ∃ m', y = Node.map m' ∧ normalizeMap m = some m' := by
  simp only [normalize_data] at h
  match hm : normalizeMap m with
  | none => rw [hm] at h; simp at h
  | some m' => rw [hm] at h; simp at h; exact ⟨m', h.symm, rfl⟩

/-- Every value of a normalized mapping is the normalization of the raw
value at the same key. -/
theorem norm_map_child {m m' : NodeMap} (h : normalizeMap m = some m') :
    ∀ kv' ∈ m'.pairs, ∃ v, (kv'.1, v) ∈ m.pairs ∧ normalize_data v = some kv'.2 := by
  intro kv' hkv'
  have hf := normalizeMap_forall₂ m m' h
  obtain ⟨kv, hkv, hr⟩ := forall₂_mem_right hf kv' hkv'
  exact ⟨kv.2, by rw [hr.1]; exact hkv, hr.2⟩

theorem containsKey_eq_keys {α : Type} : ∀ (l : List (String × α)) (k : String),
    containsKey l k = (keysOf l).contains k
  | [], _ => rfl
  | (k', v) :: t, k => by
      simp only [containsKey, alookup, keysOf, List.map_cons, List.contains_cons]
      by_cases h : k' = k
      · subst h; simp
      · have h2 : (k == k') = false := by
          simp [beq_iff_eq]
          exact fun hk => h hk.symm
        simp only [h, if_false, h2, Bool.false_or]
        exact containsKey_eq_keys t k

theorem getSortKey_map_isSome (m : NodeMap) :
    (get_sort_key (Node.map m)).isSome =
      ((keysOf m.pairs).contains "name" || !(keysOf m.pairs).isEmpty) := by
  cases m with
  | nil => simp [get_sort_key, alookup, NodeMap.pairs, keysOf]
  | cons k v t =>
      simp only [get_sort_key, NodeMap.pairs]
      cases ha : alookup ((k, v) :: t.pairs) "name" with
      | some w => simp [keysOf]
      | none => simp [keysOf]

theorem getSortKey_isSome_congr {x y : Node} (h : shapeClass x = shapeClass y) :
    (get_sort_key x).isSome = (get_sort_key y).isSome := by
  cases x with
  | map mx =>
      cases y with
      | map my =>
          simp only [shapeClass, Option.some.injEq] at h
          rw [getSortKey_map_isSome, getSortKey_map_isSome, h]
      | str s => simp [shapeClass] at h
      | int n => simp [shapeClass] at h
      | bool b => simp [shapeClass] at h
      | null => simp [shapeClass] at h
      | list l => simp [shapeClass] at h
  | str s => cases y <;> simp_all [shapeClass, get_sort_key]
  | int n => cases y <;> simp_all [shapeClass, get_sort_key]
  | bool b => cases y <;> simp_all [shapeClass, get_sort_key]
  | null => cases y <;> simp_all [shapeClass, get_sort_key]
  | list l => cases y <;> simp_all [shapeClass, get_sort_key]

theorem forall₂_mem_left {α β : Type} {R : α → β → Prop} :
    ∀ {l : List α} {l' : List β}, List.Forall₂ R l l' → ∀ a ∈ l, ∃ b ∈ l', R a b := by
  intro l l' h
  induction h with
  | nil => simp
  | @cons x y tx ty hxy _ ih =>
      intro a ha
      rcases List.mem_cons.mp ha with ha | ha
      · exact ⟨y, List.mem_cons_self y ty, ha ▸ hxy⟩
      · obtain ⟨b, hb, hr⟩ := ih a ha
        exact ⟨b, List.mem_cons_of_mem y hb, hr⟩

theorem mapO_isSome_mem {α β : Type} {f : α → Option β} {l : List α} {l' : List β}
    (h : mapO f l = some l') : ∀ a ∈ l, (f a).isSome := by
  intro a ha
  obtain ⟨b, _, hb⟩ := forall₂_mem_left (mapO_forall₂ f h) a ha
  simp [hb]

theorem normalizeList_isSome_of :
    ∀ l : NodeList, (∀ e ∈ l.toList, (normalize_data e).isSome) →
      ∃ nl, normalizeList l = some nl
  | .nil, _ => ⟨[], rfl⟩
  | .cons h t, hall => by
      obtain ⟨nh, hnh⟩ := Option.isSome_iff_exists.mp
        (hall h (by simp [NodeList.toList]))
      obtain ⟨nt, hnt⟩ := normalizeList_isSome_of t
        (fun e he => hall e (by simp [NodeList.toList]; exact Or.inr he))
      exact ⟨nh :: nt, by simp [normalizeList, hnh, hnt]⟩

theorem normalizeMap_isSome_of :
    ∀ m : NodeMap, (∀ kv ∈ m.pairs, (normalize_data kv.2).isSome) →
      ∃ m', normalizeMap m = some m'
  | .nil, _ => ⟨.nil, rfl⟩
  | .cons k v t, hall => by
      obtain ⟨nv, hnv⟩ := Option.isSome_iff_exists.mp
        (hall (k, v) (by simp [NodeMap.pairs]))
      obtain ⟨nt, hnt⟩ := normalizeMap_isSome_of t
        (fun kv hkv => hall kv (by simp [NodeMap.pairs]; exact Or.inr hkv))
      exact ⟨.cons k nv nt, by simp [normalizeMap, hnv, hnt]⟩

theorem sortedListResult_isSome (raw nl : List Node)
    (hk : should_sort_list raw = true → ∀ e ∈ raw, (get_sort_key e).isSome) :
    ∃ y, sortedListResult raw nl = some y := by
  by_cases hs : should_sort_list raw
  · obtain ⟨ks, hks⟩ := mapO_eq_some_of_all get_sort_key (hk hs)
    exact ⟨_, by unfold sortedListResult; rw [if_pos hs, hks]⟩
  · exact ⟨_, by unfold sortedListResult; rw [if_neg hs]⟩

mutual
/-- Re-normalizing a normalization result cannot fail: the crash input of
`_get_sort_key` (an empty dict in a keyed list) would already have made
the first normalization fail. -/
theorem renorm_node : ∀ x y : Node, normalize_data x = some y →
    ∃ z, normalize_data y = some z
  | .str s, y, h => by
      simp [normalize_data] at h; subst h; exact ⟨_, rfl⟩
  | .int n, y, h => by
      simp [normalize_data] at h; subst h; exact ⟨_, rfl⟩
  | .bool b, y, h => by
      simp [normalize_data] at h; subst h; exact ⟨_, rfl⟩
  | .null, y, h => by
      simp [normalize_data] at h; subst h; exact ⟨_, rfl⟩
  | .map m, y, h => by
      obtain ⟨m', hy, hm⟩ := norm_map_shape h
      subst hy
      have hvals : ∀ kv ∈ m'.pairs, (normalize_data kv.2).isSome := by
        intro kv hkv
        obtain ⟨v, hv, hnv⟩ := norm_map_child hm kv hkv
        obtain ⟨z, hz⟩ := renormMap_mem m kv.1 v hv kv.2 hnv
        simp [hz]
      obtain ⟨m₂, hm₂⟩ := normalizeMap_isSome_of m' hvals
      exact ⟨Node.map m₂, by simp [normalize_data, hm₂]⟩
  | .list l, y, h => by
      obtain ⟨l'', hy⟩ := norm_list_shape h
      subst hy
      have hmemsrc : ∀ e' ∈ l''.toList, ∃ e ∈ l.toList, normalize_data e = some e' :=
        norm_list_child h
      have helems : ∀ e' ∈ l''.toList, (normalize_data e').isSome := by
        intro e' he'
        obtain ⟨e, he, hne⟩ := hmemsrc e' he'
        obtain ⟨z, hz⟩ := renormList_mem l e he e' hne
        simp [hz]
      obtain ⟨nl2, hnl2⟩ := normalizeList_isSome_of l'' helems
      have hkeys : should_sort_list l''.toList = true →
          ∀ e' ∈ l''.toList, (get_sort_key e').isSome := by
        intro hs2 e' he'
        simp only [normalize_data, Option.bind_eq_some] at h
        obtain ⟨nl, hl, hslr⟩ := h
        rcases sortedListResult_cases hslr with ⟨_, ks, hks, hyy⟩ | ⟨hraw, hyy⟩
        · obtain ⟨e, he, hne⟩ := hmemsrc e' he'
          have hkey : (get_sort_key e).isSome := mapO_isSome_mem hks e he
          rw [getSortKey_isSome_congr (norm_shapeClass hne)]
          exact hkey
        · exfalso
          obtain rfl : l'' = mkNodeList nl := by injection hyy
          have hf := normalizeList_forall₂ l nl hl
          have hshape : List.Forall₂ (fun a b => shapeClass a = shapeClass b) l.toList nl :=
            List.Forall₂.imp (fun a b hab => (norm_shapeClass hab).symm) hf
          have : should_sort_list nl = should_sort_list l.toList :=
            (should_sort_congr hshape).symm
          rw [toList_mkNodeList] at hs2
          rw [hs2, hraw] at this
          exact absurd this (by simp)
      obtain ⟨y2, hy2⟩ := sortedListResult_isSome l''.toList nl2 hkeys
      exact ⟨y2, by simp [normalize_data, hnl2, hy2]⟩
theorem renormList_mem : ∀ l : NodeList, ∀ e ∈ l.toList, ∀ e',
    normalize_data e = some e' → ∃ z, normalize_data e' = some z
  | .nil => by simp [NodeList.toList]
  | .cons h t => by
      intro e he e' hne
      simp only [NodeList.toList, List.mem_cons] at he
      rcases he with he | he
      · exact renorm_node h e' (by rwa [he] at hne)
      · exact renormList_mem t e he e' hne
theorem renormMap_mem : ∀ m : NodeMap, ∀ k v, (k, v) ∈ m.pairs → ∀ v',
    normalize_data v = some v' → ∃ z, normalize_data v' = some z
  | .nil => by simp [NodeMap.pairs]
  | .cons k₀ v₀ t => by
      intro k v hkv v' hnv
      simp only [NodeMap.pairs, List.mem_cons] at hkv
      rcases hkv with hkv | hkv
      · cases hkv; exact renorm_node v₀ v' hnv
      · exact renormMap_mem t k v hkv v' hnv
end

theorem wf_nodeList_iff : ∀ l : NodeList,
    wf_nodeList l = true ↔ ∀ e ∈ l.toList, wf_node e = true
  | .nil => by simp [wf_nodeList, NodeList.toList]
  | .cons h t => by
      simp [wf_nodeList, NodeList.toList, wf_nodeList_iff t]

theorem wf_nodeMap_iff : ∀ m : NodeMap,
    wf_nodeMap m = true ↔ ∀ kv ∈ m.pairs, wf_node kv.2 = true
  | .nil => by simp [wf_nodeMap, NodeMap.pairs]
  | .cons k v t => by
      simp [wf_nodeMap, NodeMap.pairs, wf_nodeMap_iff t]

mutual
/-- Normalization preserves well-formedness (key lists are unchanged and
values get normalized). -/
theorem wf_pres : ∀ x y : Node, normalize_data x = some y →
    wf_node x = true → wf_node y = true
  | .str s, y, h, hw => by simp [normalize_data] at h; subst h; exact hw
  | .int n, y, h, hw => by simp [normalize_data] at h; subst h; exact hw
  | .bool b, y, h, hw => by simp [normalize_data] at h; subst h; exact hw
  | .null, y, h, hw => by simp [normalize_data] at h; subst h; exact hw
  | .map m, y, h, hw => by
      obtain ⟨m', hy, hm⟩ := norm_map_shape h
      subst hy
      simp only [wf_node, Bool.and_eq_true] at hw ⊢
      refine ⟨by rw [normalizeMap_keys hm]; exact hw.1, ?hvals⟩
      rw [wf_nodeMap_iff]
      intro kv hkv
      obtain ⟨v, hv, hnv⟩ := norm_map_child hm kv hkv
      exact wfMap_mem m kv.1 v hv kv.2 hnv ((wf_nodeMap_iff m).mp hw.2 (kv.1, v) hv)
  | .list l, y, h, hw => by
      obtain ⟨l'', hy⟩ := norm_list_shape h
      subst hy
      simp only [wf_node] at hw ⊢
      rw [wf_nodeList_iff]
      intro e' he'
      obtain ⟨e, he, hne⟩ := norm_list_child h e' he'
      exact wfList_mem l e he e' hne ((wf_nodeList_iff l).mp hw e he)
theorem wfList_mem : ∀ l : NodeList, ∀ e ∈ l.toList, ∀ e',
    normalize_data e = some e' → wf_node e = true → wf_node e' = true
  | .nil => by simp [NodeList.toList]
  | .cons h t => by
      intro e he e' hne hwe
      simp only [NodeList.toList, List.mem_cons] at he
      rcases he with he | he
      · exact wf_pres h e' (by rwa [he] at hne) (by rwa [he] at hwe)
      · exact wfList_mem t e he e' hne hwe
theorem wfMap_mem : ∀ m : NodeMap, ∀ k v, (k, v) ∈ m.pairs → ∀ v',
    normalize_data v = some v' → wf_node v = true → wf_node v' = true
  | .nil => by simp [NodeMap.pairs]
  | .cons k₀ v₀ t => by
      intro k v hkv v' hnv hwv
      simp only [NodeMap.pairs, List.mem_cons] at hkv
      rcases hkv with hkv | hkv
      · cases hkv; exact wf_pres v₀ v' hnv hwv
      · exact wfMap_mem t k v hkv v' hnv hwv
end

/-- A path segment coming from a mapping key (`path + [key]`). -/
def fieldSeg (k : String) : String := k

/-- A path segment coming from a positional index (`f"[{i}]"`). -/
def indexSeg (i : Nat) : String := "[" ++ toString i ++ "]"

/-- A path segment coming from a derived sort key (`f"[{key}]"`). -/
def keySeg (k : String) : String := "[" ++ k ++ "]"

/-- `Added` records for the keys of `rps` missing from `lps`
(`_compare_dicts`, yamldiff.py:929-934); the whole right subtree is
carried verbatim.  Python iterates the set `right_keys - left_keys`,
whose order is hash-dependent; the embedding fixes right-map insertion
order. -/
def mapAdds (lps rps : List (String × Node)) (p : List String) : List DiffItem :=
  (rps.filter (fun kv => !(containsKey lps kv.1))).map
    (fun kv => ⟨.added, p ++ [fieldSeg kv.1], none, some kv.2⟩)

/-- `Removed` records for the keys of `lps` missing from `rps`
(`_compare_dicts`, yamldiff.py:936-941). -/
def mapRems (lps rps : List (String × Node)) (p : List String) : List DiffItem :=
  (lps.filter (fun kv => !(containsKey rps kv.1))).map
    (fun kv => ⟨.removed, p ++ [fieldSeg kv.1], some kv.2, none⟩)

/-- The recursion triples for the keys present on both sides
(`_compare_dicts`, yamldiff.py:943-946), in left order. -/
def dictCommons (lps rps : List (String × Node)) (p : List String) :
    List (List String × Node × Node) :=
  lps.filterMap (fun kv => (alookup rps kv.1).map (fun rv => (p ++ [fieldSeg kv.1], kv.2, rv)))

/-- Python dict insert-or-update: a fresh key is appended, an existing
key keeps its position and takes the new value (last write wins). -/
def insertUpd {α : Type} (m : List (String × α)) (k : String) (v : α) : List (String × α) :=
  if containsKey m k then m.map (fun kv => if kv.1 = k then (kv.1, v) else kv)
  else m ++ [(k, v)]

/-- `{self._get_sort_key(item): item for item in items}`
(`_compare_sorted_lists`, yamldiff.py:962-964): the keyed lookup map of a
qualifying sequence, last write wins on key collisions; `none` models the
`StopIteration` from `_get_sort_key`. -/
def buildKeyMap (l : List Node) : Option (List (String × Node)) :=
  (mapO (fun e => (get_sort_key e).map (fun k => (k, e))) l).map
    (fun ps => ps.foldl (fun m kv => insertUpd m kv.1 kv.2) [])

/-- `Added`/`Removed`/common triples for the keyed comparison
(`_compare_sorted_lists`, yamldiff.py:969-987); full subtrees are carried
verbatim and common keys recurse.  Set iteration order is modelled as
map insertion order. -/
def keyedAdds (lM rM : List (String × Node)) (p : List String) : List DiffItem :=
  (rM.filter (fun kv => !(containsKey lM kv.1))).map
    (fun kv => ⟨.added, p ++ [keySeg kv.1], none, some kv.2⟩)

def keyedRems (lM rM : List (String × Node)) (p : List String) : List DiffItem :=
  (lM.filter (fun kv => !(containsKey rM kv.1))).map
    (fun kv => ⟨.removed, p ++ [keySeg kv.1], some kv.2, none⟩)

def keyedCommons (lM rM : List (String × Node)) (p : List String) :
    List (List String × Node × Node) :=
  lM.filterMap (fun kv => (alookup rM kv.1).map (fun rv => (p ++ [keySeg kv.1], kv.2, rv)))

/-- The index-paired recursion triples of the positional comparison
(`_compare_ordered_lists`, yamldiff.py:996-1000). -/
def zipIdxTriples (p : List String) : Nat → List Node → List Node →
    List (List String × Node × Node)
  | _, [], _ => []
  | _, _ :: _, [] => []
  | i, a :: as, b :: bs => (p ++ [indexSeg i], a, b) :: zipIdxTriples p (i + 1) as bs

/-- Trailing `Added` records of the positional comparison
(yamldiff.py:1003-1007). -/
def addedIdxRecords (p : List String) : Nat → List Node → List DiffItem
  | _, [] => []
  | i, v :: vs => ⟨.added, p ++ [indexSeg i], none, some v⟩ :: addedIdxRecords p (i + 1) vs

/-- Trailing `Removed` records of the positional comparison
(yamldiff.py:1008-1012). -/
def removedIdxRecords (p : List String) : Nat → List Node → List DiffItem
  | _, [] => []
  | i, v :: vs => ⟨.removed, p ++ [indexSeg i], some v, none⟩ :: removedIdxRecords p (i + 1) vs

/-- The records for the extra trailing elements of the longer side. -/
def orderedExtras (lls rls : List Node) (p : List String) : List DiffItem :=
  if lls.length < rls.length then addedIdxRecords p lls.length (rls.drop lls.length)
  else if rls.length < lls.length then removedIdxRecords p rls.length (lls.drop rls.length)
  else []

/-- Run `cmp` over the recursion triples in order, threading the engine's
accumulated record list (Python appends to `self.differences`). -/
def compareFold
    (cmp : List DiffItem → Node → Node → List String → Option (List DiffItem)) :
    List DiffItem → List (List String × Node × Node) → Option (List DiffItem)
  | acc, [] => some acc
  | acc, (q, a, b) :: rest =>
      match cmp acc a b q with
      | none => none
      | some acc₂ => compareFold cmp acc₂ rest

/-- The body of `YAMLDiff.compare` (yamldiff.py:900-920) together with
`_compare_dicts`, `_compare_lists`, `_compare_sorted_lists` and
`_compare_ordered_lists` (yamldiff.py:922-1012), with `rec` standing for
the recursive calls.  `acc` is the engine's `self.differences` list, to
which every emitted record is appended; the result is the final value of
that list, `none` standing for an uncaught exception.  Python's
hash-dependent iteration order over key sets is modelled as: additions in
right-side order, removals in left-side order, common keys in left-side
order. -/
def compareBody
    (rec : List DiffItem → Node → Node → List String → Option (List DiffItem))
    (acc : List DiffItem) (l r : Node) (p : List String) : Option (List DiffItem) :=
  match normalize_data l, normalize_data r with
  | some ln, some rn =>
      if tagOf ln ≠ tagOf rn then some (acc ++ [⟨.modified, p, some ln, some rn⟩])
      else
        match ln, rn with
        | .map lm, .map rm =>
            compareFold rec
              (acc ++ mapAdds lm.pairs rm.pairs p ++ mapRems lm.pairs rm.pairs p)
              (dictCommons lm.pairs rm.pairs p)
        | .list ll, .list rl =>
            if should_sort_list ll.toList && should_sort_list rl.toList then
              match buildKeyMap ll.toList, buildKeyMap rl.toList with
              | some lM, some rM =>
                  compareFold rec
                    (acc ++ keyedAdds lM rM p ++ keyedRems lM rM p)
                    (keyedCommons lM rM p)
              | _, _ => none
            else
              match compareFold rec acc (zipIdxTriples p 0 ll.toList rl.toList) with
              | none => none
              | some acc₂ => some (acc₂ ++ orderedExtras ll.toList rl.toList p)
        | _, _ =>
            if scalarEq ln rn then some acc
            else some (acc ++ [⟨.modified, p, some ln, some rn⟩])
  | _, _ => none

/-- The recursive comparator, fuel-indexed.  The fuel only bounds the
recursion depth; `compareSt` instantiates it so that it never runs out. -/
def compareF : Nat → List DiffItem → Node → Node → List String → Option (List DiffItem)
  | 0, _, _, _, _ => none
  | f + 1, acc, l, r, p => compareBody (compareF f) acc l r p

/-- One `compare` call on an engine whose `self.differences` currently
holds `acc`: the resulting value of `self.differences` (or `none` for an
uncaught exception).  The fuel `l.size + r.size` strictly exceeds the
recursion depth (normalization preserves sizes and every recursive call
strictly shrinks both sides). -/
def compareSt (acc : List DiffItem) (l r : Node) (p : List String) :
    Option (List DiffItem) :=
  compareF (l.size + r.size) acc l r p

/-- `compare` on a fresh engine (`YAMLDiff()` then `compare(left, right,
path)`): the Change Set of the run. -/
def compare (l r : Node) (p : List String) : Option (List DiffItem) :=
  compareSt [] l r p

theorem alookup_mem {α : Type} : ∀ {l : List (String × α)} {k : String} {v : α},
    alookup l k = some v → (k, v) ∈ l
  | [], k, v, h => by simp [alookup] at h
  | (k', v') :: t, k, v, h => by
      simp only [alookup] at h
      by_cases hk : k' = k
      · rw [if_pos hk] at h
        subst hk
        injection h with h2
        subst h2
        exact List.mem_cons_self _ _
      · rw [if_neg hk] at h
        exact List.mem_cons_of_mem _ (alookup_mem h)

theorem containsKey_of_mem {α : Type} : ∀ {l : List (String × α)} {k : String} {v : α},
    (k, v) ∈ l → containsKey l k = true
  | [], k, v, h => by simp at h
  | (k', v') :: t, k, v, h => by
      rcases List.mem_cons.mp h with h | h
      · injection h with h1 h2
        subst h1
        simp [containsKey, alookup]
      · by_cases hk : k' = k
        · simp [containsKey, alookup, hk]
        · have := containsKey_of_mem h
          simp only [containsKey, alookup, if_neg hk]
          exact this

theorem alookup_self_of_nodup {α : Type} : ∀ (l : List (String × α)),
    nodupKeys (keysOf l) = true → ∀ (k : String) (v : α), (k, v) ∈ l →
      alookup l k = some v := by
  intro l
  induction l with
  | nil => intro _ k v h; simp at h
  | cons kv t ih =>
      obtain ⟨k', v'⟩ := kv
      intro hnd k v h
      simp only [keysOf, List.map_cons, nodupKeys, Bool.and_eq_true,
        Bool.not_eq_true'] at hnd
      rcases List.mem_cons.mp h with h | h
      · injection h with h1 h2
        subst h1; subst h2
        simp [alookup]
      · by_cases hk : k' = k
        · exfalso
          subst hk
          have h1 : containsKey t k' = true := containsKey_of_mem h
          rw [containsKey_eq_keys] at h1
          simp only [keysOf] at h1
          rw [h1] at hnd
          exact absurd hnd.1 (by simp)
        · simp only [alookup, if_neg hk]
          have hnd2 : nodupKeys (keysOf t) = true := by
            simp only [keysOf]; exact hnd.2
          exact ih hnd2 k v h

theorem commonsAux_mem {lps rps : List (String × Node)} {p q : List String}
    (seg : String → String) {a b : Node}
    (h : (q, a, b) ∈ lps.filterMap
      (fun kv => (alookup rps kv.1).map (fun rv => (p ++ [seg kv.1], kv.2, rv)))) :
    ∃ k, (k, a) ∈ lps ∧ alookup rps k = some b ∧ q = p ++ [seg k] := by
  simp only [List.mem_filterMap] at h
  obtain ⟨kv, hkv, hf⟩ := h
  cases ha : alookup rps kv.1 with
  | none => rw [ha] at hf; simp at hf
  | some rv =>
      rw [ha] at hf
      simp only [Option.map_some', Option.some.injEq] at hf
      injection hf with hq hrest
      injection hrest with ha2 hb2
      have hmem : (kv.1, kv.2) ∈ lps := hkv
      rw [ha2] at hmem
      rw [hb2] at ha
      exact ⟨kv.1, hmem, ha, hq.symm⟩

theorem insertUpd_val_mem {α : Type} {m : List (String × α)} {k : String} {v : α}
    {k' : String} {v' : α} (h : (k', v') ∈ insertUpd m k v) :
    v' = v ∨ ∃ k'', (k'', v') ∈ m := by
  unfold insertUpd at h
  by_cases hc : containsKey m k
  · rw [if_pos hc] at h
    simp only [List.mem_map] at h
    obtain ⟨kv, hkv, hf⟩ := h
    by_cases hk : kv.1 = k
    · rw [if_pos hk] at hf
      injection hf with h1 h2
      exact Or.inl h2.symm
    · rw [if_neg hk] at hf
      right
      exact ⟨k', by rw [hf] at hkv; exact hkv⟩
  · rw [if_neg hc] at h
    rcases List.mem_append.mp h with h | h
    · exact Or.inr ⟨k', h⟩
    · simp at h
      exact Or.inl h.2

theorem foldl_insertUpd_val_mem {α : Type} :
    ∀ (ps : List (String × α)) (acc : List (String × α)) {k : String} {v : α},
      (k, v) ∈ ps.foldl (fun m kv => insertUpd m kv.1 kv.2) acc →
      (∃ k', (k', v) ∈ acc) ∨ v ∈ ps.map Prod.snd
  | [], acc, k, v, h => Or.inl ⟨k, h⟩
  | kv₀ :: t, acc, k, v, h => by
      simp only [List.foldl_cons] at h
      rcases foldl_insertUpd_val_mem t (insertUpd acc kv₀.1 kv₀.2) h with ⟨k', hk'⟩ | h
      · rcases insertUpd_val_mem hk' with h | ⟨k'', hk''⟩
        · exact Or.inr (by simp [h])
        · exact Or.inl ⟨k'', hk''⟩
      · exact Or.inr (by simp; right; simpa using h)

theorem keyPairs_snd_of_forall₂ : ∀ {l : List Node} {ps : List (String × Node)},
    List.Forall₂ (fun e b => (get_sort_key e).map (fun k => (k, e)) = some b) l ps →
    ps.map Prod.snd = l := by
  intro l ps hf
  induction hf with
  | nil => rfl
  | @cons x y tx ty hxy _ ih =>
      cases hk : get_sort_key x with
      | none => rw [hk] at hxy; simp at hxy
      | some k =>
          rw [hk] at hxy
          simp only [Option.map_some', Option.some.injEq] at hxy
          simp only [List.map_cons, ih, ← hxy]

theorem mapO_keyPairs_snd {l : List Node} {ps : List (String × Node)}
    (h : mapO (fun e => (get_sort_key e).map (fun k => (k, e))) l = some ps) :
    ps.map Prod.snd = l :=
  keyPairs_snd_of_forall₂ (mapO_forall₂ _ h)

theorem buildKeyMap_val_mem {l : List Node} {M : List (String × Node)}
    (h : buildKeyMap l = some M) {k : String} {v : Node} (hm : (k, v) ∈ M) : v ∈ l := by
  unfold buildKeyMap at h
  cases hp : mapO (fun e => (get_sort_key e).map (fun k => (k, e))) l with
  | none => rw [hp] at h; simp at h
  | some ps =>
      rw [hp] at h
      simp only [Option.map_some', Option.some.injEq] at h
      subst h
      rcases foldl_insertUpd_val_mem ps [] hm with ⟨k', hk'⟩ | hv
      · simp at hk'
      · rw [mapO_keyPairs_snd hp] at hv
        exact hv

theorem keysOf_insertUpd {α : Type} (m : List (String × α)) (k : String) (v : α) :
    keysOf (insertUpd m k v) = if containsKey m k then keysOf m else keysOf m ++ [k] := by
  unfold insertUpd
  by_cases hc : containsKey m k
  · rw [if_pos hc, if_pos hc]
    simp only [keysOf, List.map_map]
    apply List.map_congr_left
    intro kv _
    by_cases hk : kv.1 = k <;> simp [hk]
  · rw [if_neg hc, if_neg hc]
    simp [keysOf]

theorem contains_append_one : ∀ (ks : List String) (a k : String),
    (ks ++ [k]).contains a = (ks.contains a || a == k)
  | [], a, k => by
      cases h : a == k with
      | false =>
          simp only [List.nil_append, List.contains_cons, List.contains_nil, h,
            Bool.or_false, Bool.false_or]
      | true =>
          simp only [List.nil_append, List.contains_cons, List.contains_nil, h,
            Bool.or_false, Bool.false_or]
  | k₀ :: t, a, k => by
      simp only [List.cons_append, List.contains_cons, contains_append_one t a k,
        Bool.or_assoc]

theorem nodup_append_key : ∀ {ks : List String} {k : String},
    nodupKeys ks = true → ks.contains k = false → nodupKeys (ks ++ [k]) = true := by
  intro ks
  induction ks with
  | nil =>
      intro k _ _
      simp [nodupKeys, List.contains_nil]
  | cons k₀ t ih =>
      intro k h hk
      simp only [nodupKeys, Bool.and_eq_true, Bool.not_eq_true'] at h
      simp only [List.contains_cons, Bool.or_eq_false_iff] at hk
      simp only [List.cons_append, nodupKeys, Bool.and_eq_true, Bool.not_eq_true']
      constructor
      · show (t ++ [k]).contains k₀ = false
        rw [contains_append_one, h.1]
        have h2 : (k₀ == k) = false := by
          have hne : ¬ k = k₀ := by
            intro he
            rw [he] at hk
            simp at hk
          simp only [beq_eq_false_iff_ne, ne_eq]
          exact fun he => hne he.symm
        rw [h2]
        rfl
      · exact ih h.2 hk.2

theorem insertUpd_nodup {α : Type} {m : List (String × α)} (k : String) (v : α)
    (h : nodupKeys (keysOf m) = true) : nodupKeys (keysOf (insertUpd m k v)) = true := by
  rw [keysOf_insertUpd]
  by_cases hc : containsKey m k
  · rwa [if_pos hc]
  · rw [if_neg hc]
    apply nodup_append_key h
    rw [containsKey_eq_keys] at hc
    simpa using hc

theorem foldl_insertUpd_nodup {α : Type} :
    ∀ (ps : List (String × α)) (acc : List (String × α)),
      nodupKeys (keysOf acc) = true →
      nodupKeys (keysOf (ps.foldl (fun m kv => insertUpd m kv.1 kv.2) acc)) = true
  | [], acc, h => h
  | kv :: t, acc, h => by
      simp only [List.foldl_cons]
      exact foldl_insertUpd_nodup t _ (insertUpd_nodup kv.1 kv.2 h)

theorem buildKeyMap_nodup {l : List Node} {M : List (String × Node)}
    (h : buildKeyMap l = some M) : nodupKeys (keysOf M) = true := by
  unfold buildKeyMap at h
  cases hp : mapO (fun e => (get_sort_key e).map (fun k => (k, e))) l with
  | none => rw [hp] at h; simp at h
  | some ps =>
      rw [hp] at h
      simp only [Option.map_some', Option.some.injEq] at h
      subst h
      exact foldl_insertUpd_nodup ps [] rfl

theorem buildKeyMap_isSome {l : List Node}
    (h : ∀ e ∈ l, (get_sort_key e).isSome) : ∃ M, buildKeyMap l = some M := by
  obtain ⟨ps, hps⟩ := mapO_eq_some_of_all (fun e => (get_sort_key e).map (fun k => (k, e)))
    (fun e he => by
      have := h e he
      cases hk : get_sort_key e
      · rw [hk] at this; simp at this
      · simp [hk])
  exact ⟨_, by unfold buildKeyMap; rw [hps]; rfl⟩

theorem zipIdxTriples_mem {p : List String} :
    ∀ {i : Nat} {as bs : List Node} {q : List String} {a b : Node},
      (q, a, b) ∈ zipIdxTriples p i as bs → a ∈ as ∧ b ∈ bs := by
  intro i as bs
  induction as generalizing i bs with
  | nil => intro q a b h; simp [zipIdxTriples] at h
  | cons x xs ih =>
      intro q a b h
      cases bs with
      | nil => simp [zipIdxTriples] at h
      | cons y ys =>
          simp only [zipIdxTriples, List.mem_cons] at h
          rcases h with h | h
          · injection h with h1 hrest
            injection hrest with h2 h3
            subst h2; subst h3
            exact ⟨List.mem_cons_self _ _, List.mem_cons_self _ _⟩
          · obtain ⟨ha, hb⟩ := ih h
            exact ⟨List.mem_cons_of_mem _ ha, List.mem_cons_of_mem _ hb⟩

theorem zipIdxTriples_self {p : List String} :
    ∀ {i : Nat} {xs : List Node} {q : List String} {a b : Node},
      (q, a, b) ∈ zipIdxTriples p i xs xs → a = b ∧ a ∈ xs := by
  intro i xs
  induction xs generalizing i with
  | nil => intro q a b h; simp [zipIdxTriples] at h
  | cons x t ih =>
      intro q a b h
      simp only [zipIdxTriples, List.mem_cons] at h
      rcases h with h | h
      · injection h with h1 hrest
        injection hrest with h2 h3
        subst h2; subst h3
        exact ⟨rfl, List.mem_cons_self _ _⟩
      · obtain ⟨hab, ha⟩ := ih h
        exact ⟨hab, List.mem_cons_of_mem _ ha⟩

theorem compareFold_congr
    {cmp₁ cmp₂ : List DiffItem → Node → Node → List String → Option (List DiffItem)}
    : ∀ {ts : List (List String × Node × Node)},
      (∀ acc a b q, (q, a, b) ∈ ts → cmp₁ acc a b q = cmp₂ acc a b q) →
      ∀ acc, compareFold cmp₁ acc ts = compareFold cmp₂ acc ts
  | [], _, _ => rfl
  | (q, a, b) :: rest, h, acc => by
      simp only [compareFold]
      rw [h acc a b q (List.mem_cons_self _ _)]
      cases cmp₂ acc a b q with
      | none => rfl
      | some acc₂ =>
          exact compareFold_congr (fun acc' a' b' q' hm => h acc' a' b' q'
            (List.mem_cons_of_mem _ hm)) acc₂

theorem size_child_list {l : Node} {ll : NodeList}
    (hn : normalize_data l = some (Node.list ll)) {e : Node} (he : e ∈ ll.toList) :
    e.size < l.size := by
  have h1 := size_mem_toList he
  rw [norm_size l _ hn] at h1
  exact h1

theorem size_child_map {l : Node} {lm : NodeMap}
    (hn : normalize_data l = some (Node.map lm)) {k : String} {v : Node}
    (hv : (k, v) ∈ lm.pairs) : v.size < l.size := by
  have h1 := size_mem_pairs hv
  rw [norm_size l _ hn] at h1
  exact h1

theorem compareBody_congr
    {rec₁ rec₂ : List DiffItem → Node → Node → List String → Option (List DiffItem)}
    {l r : Node}
    (hrec : ∀ acc' a b q, a.size < l.size → b.size < r.size →
      rec₁ acc' a b q = rec₂ acc' a b q) :
    ∀ acc p, compareBody rec₁ acc l r p = compareBody rec₂ acc l r p := by
  intro acc p
  unfold compareBody
  cases hln : normalize_data l with
  | none => rfl
  | some ln =>
      cases hrn : normalize_data r with
      | none => rfl
      | some rn =>
          dsimp only
          by_cases ht : tagOf ln ≠ tagOf rn
          · rw [if_pos ht, if_pos ht]
          · rw [if_neg ht, if_neg ht]
            match ln, rn with
            | .map lm, .map rm =>
                dsimp only
                apply compareFold_congr
                intro acc' a b q hm
                obtain ⟨k, hka, hkb, _⟩ := commonsAux_mem fieldSeg hm
                exact hrec acc' a b q (size_child_map hln hka)
                  (size_child_map hrn (alookup_mem hkb))
            | .list ll, .list rl =>
                dsimp only
                by_cases hs : should_sort_list ll.toList && should_sort_list rl.toList
                · rw [if_pos hs, if_pos hs]
                  cases hlM : buildKeyMap ll.toList with
                  | none => rfl
                  | some lM =>
                      cases hrM : buildKeyMap rl.toList with
                      | none => rfl
                      | some rM =>
                          apply compareFold_congr
                          intro acc' a b q hm
                          obtain ⟨k, hka, hkb, _⟩ := commonsAux_mem keySeg hm
                          exact hrec acc' a b q
                            (size_child_list hln (buildKeyMap_val_mem hlM hka))
                            (size_child_list hrn (buildKeyMap_val_mem hrM (alookup_mem hkb)))
                · rw [if_neg hs, if_neg hs]
                  have heq : compareFold rec₁ acc (zipIdxTriples p 0 ll.toList rl.toList) =
                      compareFold rec₂ acc (zipIdxTriples p 0 ll.toList rl.toList) := by
                    apply compareFold_congr
                    intro acc' a b q hm
                    obtain ⟨ha, hb⟩ := zipIdxTriples_mem hm
                    exact hrec acc' a b q (size_child_list hln ha) (size_child_list hrn hb)
                  rw [heq]
            | .str s, .str s' => rfl
            | .int n, .int n' => rfl
            | .bool b₀, .bool b₁ => rfl
            | .null, .null => rfl
            | .str s, .int n' => rfl
            | .str s, .bool b₁ => rfl
            | .str s, .null => rfl
            | .str s, .list rl => rfl
            | .str s, .map rm => rfl
            | .int n, .str s' => rfl
            | .int n, .bool b₁ => rfl
            | .int n, .null => rfl
            | .int n, .list rl => rfl
            | .int n, .map rm => rfl
            | .bool b₀, .str s' => rfl
            | .bool b₀, .int n' => rfl
            | .bool b₀, .null => rfl
            | .bool b₀, .list rl => rfl
            | .bool b₀, .map rm => rfl
            | .null, .str s' => rfl
            | .null, .int n' => rfl
            | .null, .bool b₁ => rfl
            | .null, .list rl => rfl
            | .null, .map rm => rfl
            | .list ll, .str s' => rfl
            | .list ll, .int n' => rfl
            | .list ll, .bool b₁ => rfl
            | .list ll, .null => rfl
            | .list ll, .map rm => rfl
            | .map lm, .str s' => rfl
            | .map lm, .int n' => rfl
            | .map lm, .bool b₁ => rfl
            | .map lm, .null => rfl
            | .map lm, .list rl => rfl

theorem compareF_congr : ∀ (f₁ f₂ : Nat) (acc : List DiffItem) (l r : Node)
    (p : List String), l.size + r.size ≤ f₁ → l.size + r.size ≤ f₂ →
    compareF f₁ acc l r p = compareF f₂ acc l r p
  | 0, _, _, l, r, _, h₁, _ => by
      have := size_pos l; have := size_pos r; omega
  | _ + 1, 0, _, l, r, _, _, h₂ => by
      have := size_pos l; have := size_pos r; omega
  | f₁ + 1, f₂ + 1, acc, l, r, p, h₁, h₂ => by
      simp only [compareF]
      apply compareBody_congr
      intro acc' a b q hsa hsb
      exact compareF_congr f₁ f₂ acc' a b q (by omega) (by omega)

theorem compareSt_eq_compareF {f : Nat} {acc : List DiffItem} {l r : Node}
    {p : List String} (h : l.size + r.size ≤ f) :
    compareSt acc l r p = compareF f acc l r p :=
  compareF_congr _ f acc l r p (le_refl _) h

theorem norm_is_list {l : Node} {nll : NodeList}
    (h : normalize_data l = some (Node.list nll)) : ∃ l₀, l = Node.list l₀ := by
  cases l with
  | str s => simp [normalize_data] at h
  | int n => simp [normalize_data] at h
  | bool b => simp [normalize_data] at h
  | null => simp [normalize_data] at h
  | list l₀ => exact ⟨l₀, rfl⟩
  | map m =>
      obtain ⟨m', hy, _⟩ := norm_map_shape h
      exact absurd hy (by simp)

theorem norm_is_map {l : Node} {nm : NodeMap}
    (h : normalize_data l = some (Node.map nm)) : ∃ m₀, l = Node.map m₀ := by
  cases l with
  | str s => simp [normalize_data] at h
  | int n => simp [normalize_data] at h
  | bool b => simp [normalize_data] at h
  | null => simp [normalize_data] at h
  | map m₀ => exact ⟨m₀, rfl⟩
  | list l₀ =>
      obtain ⟨l', hy⟩ := norm_list_shape h
      exact absurd hy (by simp)

theorem norm_list_keys {l : Node} {nll : NodeList}
    (h : normalize_data l = some (Node.list nll))
    (hs2 : should_sort_list nll.toList = true) :
    ∀ e' ∈ nll.toList, (get_sort_key e').isSome := by
  intro e' he'
  obtain ⟨l₀, rfl⟩ := norm_is_list h
  have hmemsrc := norm_list_child h
  simp only [normalize_data, Option.bind_eq_some] at h
  obtain ⟨nl, hl, hslr⟩ := h
  rcases sortedListResult_cases hslr with ⟨_, ks, hks, hyy⟩ | ⟨hraw, hyy⟩
  · obtain ⟨e, he, hne⟩ := hmemsrc e' he'
    have hkey : (get_sort_key e).isSome := mapO_isSome_mem hks e he
    rw [getSortKey_isSome_congr (norm_shapeClass hne)]
    exact hkey
  · exfalso
    obtain rfl : nll = mkNodeList nl := by injection hyy
    have hf := normalizeList_forall₂ l₀ nl hl
    have hshape : List.Forall₂ (fun a b => shapeClass a = shapeClass b) l₀.toList nl :=
      List.Forall₂.imp (fun a b hab => (norm_shapeClass hab).symm) hf
    have heq : should_sort_list nl = should_sort_list l₀.toList :=
      (should_sort_congr hshape).symm
    rw [toList_mkNodeList] at hs2
    rw [hs2, hraw] at heq
    exact absurd heq (by simp)

theorem filter_not_contains_self {α : Type} (ps : List (String × α)) :
    ps.filter (fun kv => !(containsKey ps kv.1)) = [] := by
  rw [List.filter_eq_nil_iff]
  intro kv hkv
  have : containsKey ps kv.1 = true := containsKey_of_mem (l := ps) (v := kv.2) hkv
  simp [this]

theorem compareFold_id
    {cmp : List DiffItem → Node → Node → List String → Option (List DiffItem)} :
    ∀ {ts : List (List String × Node × Node)},
      (∀ acc' q a b, (q, a, b) ∈ ts → cmp acc' a b q = some acc') →
      ∀ acc, compareFold cmp acc ts = some acc
  | [], _, acc => rfl
  | (q, a, b) :: rest, h, acc => by
      simp only [compareFold]
      rw [h acc q a b (List.mem_cons_self _ _)]
      exact compareFold_id (fun acc' q' a' b' hm => h acc' q' a' b'
        (List.mem_cons_of_mem _ hm)) acc

theorem orderedExtras_self (xs : List Node) (p : List String) :
    orderedExtras xs xs p = [] := by
  simp [orderedExtras]

theorem compareF_eq_of_norm_eq :
    ∀ (f : Nat) (acc : List DiffItem) (l r : Node) (p : List String) (n : Node),
      l.size + r.size ≤ f → normalize_data l = some n → normalize_data r = some n →
      wf_node n = true → compareF f acc l r p = some acc
  | 0, acc, l, r, p, n, hf, _, _, _ => by
      have := size_pos l; have := size_pos r; omega
  | f + 1, acc, l, r, p, n, hf, hl, hr, hw => by
      have hszl : n.size = l.size := norm_size l n hl
      have hszr : n.size = r.size := norm_size r n hr
      simp only [compareF, compareBody]
      rw [hl, hr]
      dsimp only
      rw [if_neg (by simp)]
      match n, hl, hr, hw, hszl, hszr with
      | .map m, hl, hr, hw, hszl, hszr =>
          dsimp only
          rw [show mapAdds m.pairs m.pairs p = [] from by
              simp [mapAdds, filter_not_contains_self],
            show mapRems m.pairs m.pairs p = [] from by
              simp [mapRems, filter_not_contains_self]]
          simp only [List.append_nil]
          simp only [wf_node, Bool.and_eq_true] at hw
          apply compareFold_id
          intro acc' q a b hm
          obtain ⟨k, hka, hkb, _⟩ := commonsAux_mem fieldSeg hm
          have hab : a = b := by
            have h1 := alookup_self_of_nodup m.pairs hw.1 k a hka
            rw [h1] at hkb
            injection hkb
          subst hab
          obtain ⟨m₀, rfl⟩ := norm_is_map hl
          obtain ⟨m', hy, hnm⟩ := norm_map_shape hl
          have hmm : m' = m := by injection hy with h2; exact h2.symm
          rw [hmm] at hnm
          obtain ⟨v, hv, hnv⟩ := norm_map_child hnm (k, a) hka
          obtain ⟨na, hna⟩ := renorm_node v a hnv
          have hsa : a.size < (Node.map m).size := size_mem_pairs hka
          have hwa : wf_node a = true :=
            (wf_nodeMap_iff m).mp hw.2 (k, a) hka
          exact compareF_eq_of_norm_eq f acc' a a q na (by omega) hna hna
            (wf_pres a na hna hwa)
      | .list nll, hl, hr, hw, hszl, hszr =>
          dsimp only
          by_cases hs : should_sort_list nll.toList
          · rw [if_pos (by simp [hs])]
            obtain ⟨M, hM⟩ := buildKeyMap_isSome (norm_list_keys hl hs)
            rw [hM]
            dsimp only
            rw [show keyedAdds M M p = [] from by
                simp [keyedAdds, filter_not_contains_self],
              show keyedRems M M p = [] from by
                simp [keyedRems, filter_not_contains_self]]
            simp only [List.append_nil]
            apply compareFold_id
            intro acc' q a b hm
            obtain ⟨k, hka, hkb, _⟩ := commonsAux_mem keySeg hm
            have hab : a = b := by
              have h1 := alookup_self_of_nodup M (buildKeyMap_nodup hM) k a hka
              rw [h1] at hkb
              injection hkb
            subst hab
            have hmem : a ∈ nll.toList := buildKeyMap_val_mem hM hka
            obtain ⟨l₀, rfl⟩ := norm_is_list hl
            obtain ⟨c, hc, hnc⟩ := norm_list_child hl a hmem
            obtain ⟨na, hna⟩ := renorm_node c a hnc
            have hsa : a.size < (Node.list nll).size := size_mem_toList hmem
            have hwa : wf_node a = true := by
              simp only [wf_node] at hw
              exact (wf_nodeList_iff nll).mp hw a hmem
            exact compareF_eq_of_norm_eq f acc' a a q na (by omega) hna hna
              (wf_pres a na hna hwa)
          · rw [if_neg (by simp [hs])]
            have hfold : compareFold (compareF f) acc
                (zipIdxTriples p 0 nll.toList nll.toList) = some acc := by
              apply compareFold_id
              intro acc' q a b hm
              obtain ⟨hab, hmem⟩ := zipIdxTriples_self hm
              subst hab
              obtain ⟨l₀, rfl⟩ := norm_is_list hl
              obtain ⟨c, hc, hnc⟩ := norm_list_child hl a hmem
              obtain ⟨na, hna⟩ := renorm_node c a hnc
              have hsa : a.size < (Node.list nll).size := size_mem_toList hmem
              have hwa : wf_node a = true := by
                simp only [wf_node] at hw
                exact (wf_nodeList_iff nll).mp hw a hmem
              exact compareF_eq_of_norm_eq f acc' a a q na (by omega) hna hna
                (wf_pres a na hna hwa)
            rw [hfold]
            simp [orderedExtras_self]
      | .str s, hl, hr, hw, hszl, hszr =>
          dsimp only
          rw [if_pos (by simp [scalarEq])]
      | .int n₀, hl, hr, hw, hszl, hszr =>
          dsimp only
          rw [if_pos (by simp [scalarEq])]
      | .bool b₀, hl, hr, hw, hszl, hszr =>
          dsimp only
          rw [if_pos (by simp [scalarEq])]
      | .null, hl, hr, hw, hszl, hszr =>
          dsimp only
          rw [if_pos (by simp [scalarEq])]

theorem compare_empty_of_norm_eq {l r : Node} {p : List String} {n : Node}
    (hl : normalize_data l = some n) (hr : normalize_data r = some n)
    (hw : wf_node n = true) : compare l r p = some [] :=
  compareF_eq_of_norm_eq (l.size + r.size) [] l r p n (le_refl _) hl hr hw

theorem compare_self_of_wf {x n : Node} {p : List String}
    (hx : normalize_data x = some n) (hw : wf_node x = true) :
    compare x x p = some [] :=
  compare_empty_of_norm_eq hx hx (wf_pres x n hx hw)

theorem compareFold_shift
    {cmp : List DiffItem → Node → Node → List String → Option (List DiffItem)}
    (hcmp : ∀ acc a b q, cmp acc a b q = (cmp [] a b q).map (fun ds => acc ++ ds)) :
    ∀ (ts : List (List String × Node × Node)) (acc₁ acc₂ : List DiffItem),
      compareFold cmp (acc₁ ++ acc₂) ts = (compareFold cmp acc₂ ts).map (fun ds => acc₁ ++ ds)
  | [], acc₁, acc₂ => by simp [compareFold]
  | (q, a, b) :: rest, acc₁, acc₂ => by
      simp only [compareFold]
      rw [hcmp (acc₁ ++ acc₂) a b q, hcmp acc₂ a b q]
      cases h0 : cmp [] a b q with
      | none => simp
      | some δ =>
          simp only [Option.map_some']
          rw [List.append_assoc]
          exact compareFold_shift hcmp rest acc₁ (acc₂ ++ δ)

theorem compareF_shift :
    ∀ (f : Nat) (acc : List DiffItem) (l r : Node) (p : List String),
      compareF f acc l r p = (compareF f [] l r p).map (fun ds => acc ++ ds)
  | 0, acc, l, r, p => rfl
  | f + 1, acc, l, r, p => by
      simp only [compareF, compareBody]
      cases hln : normalize_data l with
      | none => rfl
      | some ln =>
          cases hrn : normalize_data r with
          | none => rfl
          | some rn =>
              dsimp only
              by_cases ht : tagOf ln ≠ tagOf rn
              · rw [if_pos ht, if_pos ht]
                simp
              · rw [if_neg ht, if_neg ht]
                match ln, rn with
                | .map lm, .map rm =>
                    dsimp only
                    have h1 : acc ++ mapAdds lm.pairs rm.pairs p ++ mapRems lm.pairs rm.pairs p
                        = acc ++ (mapAdds lm.pairs rm.pairs p ++ mapRems lm.pairs rm.pairs p) := by
                      simp [List.append_assoc]
                    have h2 : mapAdds lm.pairs rm.pairs p ++ mapRems lm.pairs rm.pairs p
                        = [] ++ (mapAdds lm.pairs rm.pairs p ++ mapRems lm.pairs rm.pairs p) := by
                      simp
                    rw [h1]
                    rw [compareFold_shift (compareF_shift f) _ acc _]
                    have h3 : ([] : List DiffItem) ++ mapAdds lm.pairs rm.pairs p
                        ++ mapRems lm.pairs rm.pairs p
                        = mapAdds lm.pairs rm.pairs p ++ mapRems lm.pairs rm.pairs p := by
                      simp
                    rw [h3]
                | .list ll, .list rl =>
                    dsimp only
                    by_cases hs : should_sort_list ll.toList && should_sort_list rl.toList
                    · rw [if_pos hs, if_pos hs]
                      cases hlM : buildKeyMap ll.toList with
                      | none => rfl
                      | some lM =>
                          cases hrM : buildKeyMap rl.toList with
                          | none => rfl
                          | some rM =>
                              dsimp only
                              have h1 : acc ++ keyedAdds lM rM p ++ keyedRems lM rM p
                                  = acc ++ (keyedAdds lM rM p ++ keyedRems lM rM p) := by
                                simp [List.append_assoc]
                              rw [h1]
                              rw [compareFold_shift (compareF_shift f) _ acc _]
                              have h3 : ([] : List DiffItem) ++ keyedAdds lM rM p
                                  ++ keyedRems lM rM p
                                  = keyedAdds lM rM p ++ keyedRems lM rM p := by
                                simp
                              rw [h3]
                    · rw [if_neg hs, if_neg hs]
                      have h1 : (acc : List DiffItem) = acc ++ [] := by simp
                      rw [h1, compareFold_shift (compareF_shift f) _ acc []]
                      cases h0 : compareFold (compareF f) []
                          (zipIdxTriples p 0 ll.toList rl.toList) with
                      | none => simp
                      | some z =>
                          simp only [Option.map_some']
                          simp [List.append_assoc]
                | .str s, .str s' =>
                    dsimp only
                    by_cases he : scalarEq (Node.str s) (Node.str s')
                    · rw [if_pos he, if_pos he]; simp
                    · rw [if_neg he, if_neg he]; simp
                | .int n₀, .int n₁ =>
                    dsimp only
                    by_cases he : scalarEq (Node.int n₀) (Node.int n₁)
                    · rw [if_pos he, if_pos he]; simp
                    · rw [if_neg he, if_neg he]; simp
                | .bool b₀, .bool b₁ =>
                    dsimp only
                    by_cases he : scalarEq (Node.bool b₀) (Node.bool b₁)
                    · rw [if_pos he, if_pos he]; simp
                    · rw [if_neg he, if_neg he]; simp
                | .null, .null =>
                    dsimp only
                    rw [if_pos (show scalarEq Node.null Node.null = true from rfl),
                      if_pos (show scalarEq Node.null Node.null = true from rfl)]
                    simp
                | .str s, .int n' =>
                    dsimp only
                    rw [if_neg (by simp [scalarEq]), if_neg (by simp [scalarEq])]
                    simp
                | .str s, .bool b₁ =>
                    dsimp only
                    rw [if_neg (by simp [scalarEq]), if_neg (by simp [scalarEq])]
                    simp
                | .str s, .null =>
                    dsimp only
                    rw [if_neg (by simp [scalarEq]), if_neg (by simp [scalarEq])]
                    simp
                | .str s, .list rl =>
                    dsimp only
                    rw [if_neg (by simp [scalarEq]), if_neg (by simp [scalarEq])]
                    simp
                | .str s, .map rm =>
                    dsimp only
                    rw [if_neg (by simp [scalarEq]), if_neg (by simp [scalarEq])]
                    simp
                | .int n₀, .str s' =>
                    dsimp only
                    rw [if_neg (by simp [scalarEq]), if_neg (by simp [scalarEq])]
                    simp
                | .int n₀, .bool b₁ =>
                    dsimp only
                    rw [if_neg (by simp [scalarEq]), if_neg (by simp [scalarEq])]
                    simp
                | .int n₀, .null =>
                    dsimp only
                    rw [if_neg (by simp [scalarEq]), if_neg (by simp [scalarEq])]
                    simp
                | .int n₀, .list rl =>
                    dsimp only
                    rw [if_neg (by simp [scalarEq]), if_neg (by simp [scalarEq])]
                    simp
                | .int n₀, .map rm =>
                    dsimp only
                    rw [if_neg (by simp [scalarEq]), if_neg (by simp [scalarEq])]
                    simp
                | .bool b₀, .str s' =>
                    dsimp only
                    rw [if_neg (by simp [scalarEq]), if_neg (by simp [scalarEq])]
                    simp
                | .bool b₀, .int n₁ =>
                    dsimp only
                    rw [if_neg (by simp [scalarEq]), if_neg (by simp [scalarEq])]
                    simp
                | .bool b₀, .null =>
                    dsimp only
                    rw [if_neg (by simp [scalarEq]), if_neg (by simp [scalarEq])]
                    simp
                | .bool b₀, .list rl =>
                    dsimp only
                    rw [if_neg (by simp [scalarEq]), if_neg (by simp [scalarEq])]
                    simp
                | .bool b₀, .map rm =>
                    dsimp only
                    rw [if_neg (by simp [scalarEq]), if_neg (by simp [scalarEq])]
                    simp
                | .null, .str s' =>
                    dsimp only
                    rw [if_neg (by simp [scalarEq]), if_neg (by simp [scalarEq])]
                    simp
                | .null, .int n₁ =>
                    dsimp only
                    rw [if_neg (by simp [scalarEq]), if_neg (by simp [scalarEq])]
                    simp
                | .null, .bool b₁ =>
                    dsimp only
                    rw [if_neg (by simp [scalarEq]), if_neg (by simp [scalarEq])]
                    simp
                | .null, .list rl =>
                    dsimp only
                    rw [if_neg (by simp [scalarEq]), if_neg (by simp [scalarEq])]
                    simp
                | .null, .map rm =>
                    dsimp only
                    rw [if_neg (by simp [scalarEq]), if_neg (by simp [scalarEq])]
                    simp
                | .list ll, .str s' =>
                    dsimp only
                    rw [if_neg (by simp [scalarEq]), if_neg (by simp [scalarEq])]
                    simp
                | .list ll, .int n₁ =>
                    dsimp only
                    rw [if_neg (by simp [scalarEq]), if_neg (by simp [scalarEq])]
                    simp
                | .list ll, .bool b₁ =>
                    dsimp only
                    rw [if_neg (by simp [scalarEq]), if_neg (by simp [scalarEq])]
                    simp
                | .list ll, .null =>
                    dsimp only
                    rw [if_neg (by simp [scalarEq]), if_neg (by simp [scalarEq])]
                    simp
                | .list ll, .map rm =>
                    dsimp only
                    rw [if_neg (by simp [scalarEq]), if_neg (by simp [scalarEq])]
                    simp
                | .map lm, .str s' =>
                    dsimp only
                    rw [if_neg (by simp [scalarEq]), if_neg (by simp [scalarEq])]
                    simp
                | .map lm, .int n₁ =>
                    dsimp only
                    rw [if_neg (by simp [scalarEq]), if_neg (by simp [scalarEq])]
                    simp
                | .map lm, .bool b₁ =>
                    dsimp only
                    rw [if_neg (by simp [scalarEq]), if_neg (by simp [scalarEq])]
                    simp
                | .map lm, .null =>
                    dsimp only
                    rw [if_neg (by simp [scalarEq]), if_neg (by simp [scalarEq])]
                    simp
                | .map lm, .list rl =>
                    dsimp only
                    rw [if_neg (by simp [scalarEq]), if_neg (by simp [scalarEq])]
                    simp

theorem compareSt_shift (acc : List DiffItem) (l r : Node) (p : List String) :
    compareSt acc l r p = (compare l r p).map (fun ds => acc ++ ds) := by
  unfold compareSt compare compareSt
  exact compareF_shift (l.size + r.size) acc l r p

/-- The option-shape invariant of a Change Record: `Added` has no old
value and carries a new one, `Removed` the reverse, `Modified` both. -/
def recordInv (d : DiffItem) : Bool :=
  match d.change_type with
  | .added => d.old_value.isNone && d.new_value.isSome
  | .removed => d.old_value.isSome && d.new_value.isNone
  | .modified => d.old_value.isSome && d.new_value.isSome

theorem recordInv_mapAdds {lps rps : List (String × Node)} {p : List String}
    {d : DiffItem} (h : d ∈ mapAdds lps rps p) : recordInv d = true := by
  simp only [mapAdds, List.mem_map] at h
  obtain ⟨kv, _, rfl⟩ := h
  rfl

theorem recordInv_mapRems {lps rps : List (String × Node)} {p : List String}
    {d : DiffItem} (h : d ∈ mapRems lps rps p) : recordInv d = true := by
  simp only [mapRems, List.mem_map] at h
  obtain ⟨kv, _, rfl⟩ := h
  rfl

theorem recordInv_keyedAdds {lM rM : List (String × Node)} {p : List String}
    {d : DiffItem} (h : d ∈ keyedAdds lM rM p) : recordInv d = true := by
  simp only [keyedAdds, List.mem_map] at h
  obtain ⟨kv, _, rfl⟩ := h
  rfl

theorem recordInv_keyedRems {lM rM : List (String × Node)} {p : List String}
    {d : DiffItem} (h : d ∈ keyedRems lM rM p) : recordInv d = true := by
  simp only [keyedRems, List.mem_map] at h
  obtain ⟨kv, _, rfl⟩ := h
  rfl

theorem recordInv_addedIdx {p : List String} :
    ∀ {i : Nat} {vs : List Node} {d : DiffItem}, d ∈ addedIdxRecords p i vs →
      recordInv d = true := by
  intro i vs
  induction vs generalizing i with
  | nil => intro d h; simp [addedIdxRecords] at h
  | cons v t ih =>
      intro d h
      rcases List.mem_cons.mp h with h | h
      · subst h; rfl
      · exact ih h

theorem recordInv_removedIdx {p : List String} :
    ∀ {i : Nat} {vs : List Node} {d : DiffItem}, d ∈ removedIdxRecords p i vs →
      recordInv d = true := by
  intro i vs
  induction vs generalizing i with
  | nil => intro d h; simp [removedIdxRecords] at h
  | cons v t ih =>
      intro d h
      rcases List.mem_cons.mp h with h | h
      · subst h; rfl
      · exact ih h

theorem recordInv_orderedExtras {lls rls : List Node} {p : List String}
    {d : DiffItem} (h : d ∈ orderedExtras lls rls p) : recordInv d = true := by
  unfold orderedExtras at h
  by_cases h1 : lls.length < rls.length
  · rw [if_pos h1] at h
    exact recordInv_addedIdx h
  · rw [if_neg h1] at h
    by_cases h2 : rls.length < lls.length
    · rw [if_pos h2] at h
      exact recordInv_removedIdx h
    · rw [if_neg h2] at h
      simp at h

theorem compareFold_inv
    {cmp : List DiffItem → Node → Node → List String → Option (List DiffItem)} :
    ∀ {ts : List (List String × Node × Node)},
      (∀ acc' a b q out', (q, a, b) ∈ ts → cmp acc' a b q = some out' →
        ∀ d ∈ out', d ∈ acc' ∨ recordInv d = true) →
      ∀ acc out, compareFold cmp acc ts = some out →
        ∀ d ∈ out, d ∈ acc ∨ recordInv d = true
  | [], _, acc, out, h, d, hd => by
      simp only [compareFold] at h
      injection h with h2
      subst h2
      exact Or.inl hd
  | (q, a, b) :: rest, hcmp, acc, out, h, d, hd => by
      simp only [compareFold] at h
      cases h0 : cmp acc a b q with
      | none => rw [h0] at h; simp at h
      | some acc₂ =>
          rw [h0] at h
          rcases compareFold_inv
            (fun acc' a' b' q' out' hm => hcmp acc' a' b' q' out' (List.mem_cons_of_mem _ hm))
            acc₂ out h d hd with h2 | h2
          · rcases hcmp acc a b q acc₂ (List.mem_cons_self _ _) h0 d h2 with h3 | h3
            · exact Or.inl h3
            · exact Or.inr h3
          · exact Or.inr h2

theorem compareF_inv :
    ∀ (f : Nat) (acc : List DiffItem) (l r : Node) (p : List String)
      (out : List DiffItem), compareF f acc l r p = some out →
      ∀ d ∈ out, d ∈ acc ∨ recordInv d = true
  | 0, acc, l, r, p, out, h => by simp [compareF] at h
  | f + 1, acc, l, r, p, out, h => by
      simp only [compareF, compareBody] at h
      cases hln : normalize_data l with
      | none => rw [hln] at h; simp at h
      | some ln =>
          cases hrn : normalize_data r with
          | none => rw [hln, hrn] at h; simp at h
          | some rn =>
              rw [hln, hrn] at h
              dsimp only at h
              by_cases ht : tagOf ln ≠ tagOf rn
              · rw [if_pos ht] at h
                injection h with h2
                subst h2
                intro d hd
                rcases List.mem_append.mp hd with hd | hd
                · exact Or.inl hd
                · simp only [List.mem_singleton] at hd
                  subst hd
                  exact Or.inr rfl
              · rw [if_neg ht] at h
                match ln, rn, h with
                | .map lm, .map rm, h =>
                    dsimp only at h
                    intro d hd
                    rcases compareFold_inv
                      (fun acc' a b q out' _ hc => compareF_inv f acc' a b q out' hc)
                      _ out h d hd with h2 | h2
                    · rcases List.mem_append.mp h2 with h3 | h3
                      · rcases List.mem_append.mp h3 with h4 | h4
                        · exact Or.inl h4
                        · exact Or.inr (recordInv_mapAdds h4)
                      · exact Or.inr (recordInv_mapRems h3)
                    · exact Or.inr h2
                | .list ll, .list rl, h =>
                    dsimp only at h
                    by_cases hs : should_sort_list ll.toList && should_sort_list rl.toList
                    · rw [if_pos hs] at h
                      cases hlM : buildKeyMap ll.toList with
                      | none => rw [hlM] at h; simp at h
                      | some lM =>
                          cases hrM : buildKeyMap rl.toList with
                          | none => rw [hlM, hrM] at h; simp at h
                          | some rM =>
                              rw [hlM, hrM] at h
                              dsimp only at h
                              intro d hd
                              rcases compareFold_inv
                                (fun acc' a b q out' _ hc => compareF_inv f acc' a b q out' hc)
                                _ out h d hd with h2 | h2
                              · rcases List.mem_append.mp h2 with h3 | h3
                                · rcases List.mem_append.mp h3 with h4 | h4
                                  · exact Or.inl h4
                                  · exact Or.inr (recordInv_keyedAdds h4)
                                · exact Or.inr (recordInv_keyedRems h3)
                              · exact Or.inr h2
                    · rw [if_neg hs] at h
                      cases h0 : compareFold (compareF f) acc
                          (zipIdxTriples p 0 ll.toList rl.toList) with
                      | none => rw [h0] at h; simp at h
                      | some acc₂ =>
                          rw [h0] at h
                          injection h with h2
                          subst h2
                          intro d hd
                          rcases List.mem_append.mp hd with hd | hd
                          · exact compareFold_inv
                              (fun acc' a b q out' _ hc => compareF_inv f acc' a b q out' hc)
                              acc acc₂ h0 d hd
                          · exact Or.inr (recordInv_orderedExtras hd)
                | .str s, .str s', h =>
                    dsimp only at h
                    by_cases he : scalarEq (Node.str s) (Node.str s') = true
                    · rw [if_pos he] at h
                      injection h with h2
                      subst h2
                      exact fun d hd => Or.inl hd
                    · rw [if_neg he] at h
                      injection h with h2
                      subst h2
                      intro d hd
                      rcases List.mem_append.mp hd with hd | hd
                      · exact Or.inl hd
                      · simp only [List.mem_singleton] at hd
                        subst hd
                        exact Or.inr rfl
                | .int n₀, .int n₁, h =>
                    dsimp only at h
                    by_cases he : scalarEq (Node.int n₀) (Node.int n₁) = true
                    · rw [if_pos he] at h
                      injection h with h2
                      subst h2
                      exact fun d hd => Or.inl hd
                    · rw [if_neg he] at h
                      injection h with h2
                      subst h2
                      intro d hd
                      rcases List.mem_append.mp hd with hd | hd
                      · exact Or.inl hd
                      · simp only [List.mem_singleton] at hd
                        subst hd
                        exact Or.inr rfl
                | .bool b₀, .bool b₁, h =>
                    dsimp only at h
                    by_cases he : scalarEq (Node.bool b₀) (Node.bool b₁) = true
                    · rw [if_pos he] at h
                      injection h with h2
                      subst h2
                      exact fun d hd => Or.inl hd
                    · rw [if_neg he] at h
                      injection h with h2
                      subst h2
                      intro d hd
                      rcases List.mem_append.mp hd with hd | hd
                      · exact Or.inl hd
                      · simp only [List.mem_singleton] at hd
                        subst hd
                        exact Or.inr rfl
                | .null, .null, h =>
                    dsimp only at h
                    rw [if_pos (show scalarEq Node.null Node.null = true from rfl)] at h
                    injection h with h2
                    subst h2
                    exact fun d hd => Or.inl hd
                | .str s, .int n₁, h => simp [tagOf] at ht
                | .str s, .bool b₁, h => simp [tagOf] at ht
                | .str s, .null, h => simp [tagOf] at ht
                | .str s, .list rl, h => simp [tagOf] at ht
                | .str s, .map rm, h => simp [tagOf] at ht
                | .int n₀, .str s', h => simp [tagOf] at ht
                | .int n₀, .bool b₁, h => simp [tagOf] at ht
                | .int n₀, .null, h => simp [tagOf] at ht
                | .int n₀, .list rl, h => simp [tagOf] at ht
                | .int n₀, .map rm, h => simp [tagOf] at ht
                | .bool b₀, .str s', h => simp [tagOf] at ht
                | .bool b₀, .int n₁, h => simp [tagOf] at ht
                | .bool b₀, .null, h => simp [tagOf] at ht
                | .bool b₀, .list rl, h => simp [tagOf] at ht
                | .bool b₀, .map rm, h => simp [tagOf] at ht
                | .null, .str s', h => simp [tagOf] at ht
                | .null, .int n₁, h => simp [tagOf] at ht
                | .null, .bool b₁, h => simp [tagOf] at ht
                | .null, .list rl, h => simp [tagOf] at ht
                | .null, .map rm, h => simp [tagOf] at ht
                | .list ll, .str s', h => simp [tagOf] at ht
                | .list ll, .int n₁, h => simp [tagOf] at ht
                | .list ll, .bool b₁, h => simp [tagOf] at ht
                | .list ll, .null, h => simp [tagOf] at ht
                | .list ll, .map rm, h => simp [tagOf] at ht
                | .map lm, .str s', h => simp [tagOf] at ht
                | .map lm, .int n₁, h => simp [tagOf] at ht
                | .map lm, .bool b₁, h => simp [tagOf] at ht
                | .map lm, .null, h => simp [tagOf] at ht
                | .map lm, .list rl, h => simp [tagOf] at ht


theorem contains_iff_mem (ks : List String) (k : String) :
    ks.contains k = true ↔ k ∈ ks := by
  induction ks with
  | nil => simp [List.contains_cons]
  | cons a t ih =>
      simp only [List.contains_cons, Bool.or_eq_true, beq_iff_eq, ih, List.mem_cons]

theorem sameKeySet_refl (ks : List String) : sameKeySet ks ks = true := by
  simp only [sameKeySet, Bool.and_eq_true, List.all_eq_true]
  exact ⟨fun k hk => (contains_iff_mem ks k).mpr hk, fun k hk => (contains_iff_mem ks k).mpr hk⟩

/-- Modelled from the claim's wording for C3: a sequence qualifies iff it
is non-empty, its first element is a Mapping, and either the first
element has a field named `name`, or every element is a Mapping and all
elements share an identical key set. -/
def qualifiesSpec (l : List Node) : Bool :=
  match l with
  | [] => false
  | first :: _ =>
      match first with
      | .map m =>
          (keysOf m.pairs).contains "name" ||
          l.all (fun e => match e with
            | .map m' => sameKeySet (keysOf m'.pairs) (keysOf m.pairs)
            | _ => false)
      | _ => false

/-- The amended condition: additionally the first element's key set must
be non-empty (so empty sequences and sequences of empty mappings never
qualify, matching the code). -/
def qualifiesSpecAmended (l : List Node) : Bool :=
  match l with
  | [] => false
  | first :: _ =>
      match first with
      | .map m =>
          !(keysOf m.pairs).isEmpty &&
          ((keysOf m.pairs).contains "name" ||
            l.all (fun e => match e with
              | .map m' => sameKeySet (keysOf m'.pairs) (keysOf m.pairs)
              | _ => false))
      | _ => false

-- C2 crash document
def crashDoc : Node :=
  .map (mkNodeMap [("a", .list (mkNodeList
    [.map (mkNodeMap [("name", .str "x")]), .map .nil]))])

def L4doc : Node := .map (mkNodeMap [("env", .list (mkNodeList
  [.map (mkNodeMap [("name", .str "A"), ("value", .str "1")])]))])
def R4doc : Node := .map (mkNodeMap [("env", .list (mkNodeList
  [.map (mkNodeMap [("name", .str "A"),
    ("valueFrom", .map (mkNodeMap [("secretKeyRef", .str "s")]))])]))])



-- C4 combine function
def alookupP {α : Type} : List (List String × α) → List String → Option α
  | [], _ => none
  | (k, v) :: t, q => if k = q then some v else alookupP t q

def insertUpdP {α : Type} (m : List (List String × α)) (k : List String) (v : α) :
    List (List String × α) :=
  if m.any (fun kv => kv.1 = k) then
    m.map (fun kv => if kv.1 = k then (kv.1, v) else kv)
  else m ++ [(k, v)]

def envGroups (ds : List DiffItem) :
    List (List String × DiffItem) × List (List String × DiffItem) :=
  ds.foldl (fun g d =>
    match d.path.getLast? with
    | some s =>
        if s = "value" then (insertUpdP g.1 d.path.dropLast d, g.2)
        else if s = "valueFrom" then (g.1, insertUpdP g.2 d.path.dropLast d)
        else g
    | none => g) ([], [])

def combineStep1 (vfd : List (List String × DiffItem))
    (a : List DiffItem × List (List String)) (kv : List String × DiffItem) :
    List DiffItem × List (List String) :=
  if a.2.contains kv.1 then a
  else
    match alookupP vfd kv.1 with
    | some vf =>
        if kv.2.change_type = ChangeType.added ∧ vf.change_type = ChangeType.removed then
          (a.1 ++ [⟨ChangeType.modified, kv.2.path.dropLast, vf.old_value, kv.2.new_value⟩],
           a.2 ++ [kv.1])
        else if a.2.contains kv.1 then a else (a.1 ++ [kv.2], a.2)
    | none => if a.2.contains kv.1 then a else (a.1 ++ [kv.2], a.2)

def combineStep2 (vd : List (List String × DiffItem))
    (a : List DiffItem × List (List String)) (kv : List String × DiffItem) :
    List DiffItem × List (List String) :=
  if a.2.contains kv.1 then a
  else
    match alookupP vd kv.1 with
    | some v =>
        if kv.2.change_type = ChangeType.added ∧ v.change_type = ChangeType.removed then
          (a.1 ++ [⟨ChangeType.modified, kv.2.path.dropLast, v.old_value, kv.2.new_value⟩],
           a.2 ++ [kv.1])
        else if a.2.contains kv.1 then a else (a.1 ++ [kv.2], a.2)
    | none => if a.2.contains kv.1 then a else (a.1 ++ [kv.2], a.2)

def combine_complementary_env_diffs (ds : List DiffItem) : List DiffItem :=
  match ds with
  | [] => []
  | _ =>
      let g := envGroups ds
      let r₁ := g.1.foldl (combineStep1 g.2) ([], [])
      let r₂ := g.2.foldl (combineStep2 g.1) r₁
      r₂.1

-- C10 counterexample docs
def E1n : Node := .map (mkNodeMap [("k", .list (mkNodeList
  [.map (mkNodeMap [("a", .int 2)]), .map (mkNodeMap [("a", .int 1)])]))])
def E2n : Node := .map (mkNodeMap [("k", .str "[\x7b\x27a\x27: 1\x7d, \x7b\x27a\x27: 9\x7d]")])
def P10 : Node := .list (mkNodeList [E1n, E2n])



-- ==== helper: tag mismatch gives one Modified record ====
theorem compare_tag_mismatch {l r : Node} {p : List String} {ln rn : Node}
    (hl : normalize_data l = some ln) (hr : normalize_data r = some rn)
    (ht : tagOf ln ≠ tagOf rn) :
    compare l r p = some [⟨ChangeType.modified, p, some ln, some rn⟩] := by
  unfold compare compareSt
  obtain ⟨k, hk⟩ : ∃ k, l.size + r.size = k + 1 :=
    ⟨l.size + r.size - 1, by have := size_pos l; omega⟩
  rw [hk]
  show compareBody (compareF k) [] l r p = _
  unfold compareBody
  rw [hl, hr]
  dsimp only
  rw [if_pos ht, List.nil_append]

/-- Claim C2: `compare(X, X)` is claimed to be empty for every
well-formed tree `X`; `crashDoc` (a mapping holding the sequence
`[{name: x}, {}]`) is well-formed, yet the comparison dies in
`_get_sort_key` (`next(iter({}.keys()))` raises `StopIteration`), so no
Change Set is produced at all. -/
theorem c2_self_compare_crash :
    wf_node crashDoc = true ∧ compare crashDoc crashDoc [] = none :=
  ⟨by decide, rfl⟩

/-- Claim C7: the record list of one `compare` call is a pure function of
(left, right, path) prefixed by the engine state: an engine whose
`self.differences` already holds `acc` ends with `acc ++ compare l r p`.
The bare result therefore depends on the records accumulated by earlier
invocations on the same engine (see the counterexample), which is what
the amendment makes explicit. -/
theorem c7_accumulation (acc : List DiffItem) (l r : Node) (p : List String) :
    compareSt acc l r p = (compare l r p).map (fun d => acc ++ d) :=
  compareSt_shift acc l r p

theorem c7_state_counterexample :
    compare (Node.int 1) (Node.int 2) ["k"] =
      some [⟨ChangeType.modified, ["k"], some (Node.int 1), some (Node.int 2)⟩] ∧
    compareSt [⟨ChangeType.modified, ["k"], some (Node.int 1), some (Node.int 2)⟩]
        (Node.int 1) (Node.int 2) ["k"] =
      some [⟨ChangeType.modified, ["k"], some (Node.int 1), some (Node.int 2)⟩,
        ⟨ChangeType.modified, ["k"], some (Node.int 1), some (Node.int 2)⟩] ∧
    ([⟨ChangeType.modified, ["k"], some (Node.int 1), some (Node.int 2)⟩,
        ⟨ChangeType.modified, ["k"], some (Node.int 1), some (Node.int 2)⟩] :
        List DiffItem) ≠
      [⟨ChangeType.modified, ["k"], some (Node.int 1), some (Node.int 2)⟩] :=
  ⟨rfl, rfl, fun h => by simp at h⟩


/-- Claim C9: the amended distinguishability property.  In the code every
path segment is a plain string: a field name is used verbatim while both
positional indices and derived keys are wrapped in brackets, so a field
name that does not itself start with `[` can never collide with an index
or derived-key segment.  (Unrestricted distinguishability is false: see
the counterexample, where a bracketed field name collides with an index
segment and a derived-key segment collides with an index segment.) -/
theorem c9_segment_disjoint (k : String) (i : Nat) (s : String)
    (h : k.data.head? ≠ some (Char.ofNat 91)) :
    fieldSeg k ≠ indexSeg i ∧ fieldSeg k ≠ keySeg s := by
  constructor
  · intro he
    apply h
    have : (fieldSeg k).data.head? = (indexSeg i).data.head? := by rw [he]
    rw [fieldSeg] at this
    rw [this]
    simp [indexSeg, String.data_append]
  · intro he
    apply h
    have : (fieldSeg k).data.head? = (keySeg s).data.head? := by rw [he]
    rw [fieldSeg] at this
    rw [this]
    simp [keySeg, String.data_append]

theorem c9_segment_disjoint_witness :
    ("name" : String).data.head? ≠ some (Char.ofNat 91) ∧
    (fieldSeg "name" ≠ indexSeg 0 ∧ fieldSeg "name" ≠ keySeg "x") :=
  ⟨by decide, c9_segment_disjoint "name" 0 "x" (by decide)⟩

theorem c9_segment_collision :
    fieldSeg "[0]" = indexSeg 0 ∧ keySeg "0" = indexSeg 0 ∧
    compare (Node.map (mkNodeMap [("[0]", Node.int 1)]))
        (Node.map (mkNodeMap [("[0]", Node.int 2)])) [] =
      some [⟨ChangeType.modified, [indexSeg 0], some (Node.int 1), some (Node.int 2)⟩] ∧
    compare (Node.list (mkNodeList [Node.int 1]))
        (Node.list (mkNodeList [Node.int 2])) [] =
      some [⟨ChangeType.modified, [indexSeg 0], some (Node.int 1), some (Node.int 2)⟩] :=
  ⟨rfl, rfl, rfl, rfl⟩


/-- Claim C3: the amended qualification rule.  `should_sort_list`
(yamldiff.py:866-887) agrees with the spec condition only after adding
the requirement that the first mapping has at least one key:
`qualifiesSpec` alone wrongly classifies `[{}]` (see the
counterexample). -/
theorem c3_should_sort_characterization (l : List Node) :
    should_sort_list l = qualifiesSpecAmended l := by
  cases l with
  | nil => rfl
  | cons first rest =>
      cases first with
      | str s => rfl
      | int n => rfl
      | bool b => rfl
      | null => rfl
      | list t => rfl
      | map m =>
          simp only [should_sort_list, qualifiesSpecAmended]
          by_cases he : (keysOf m.pairs).isEmpty
          · simp [he]
          · simp [he, sameKeySet_refl]

theorem c3_empty_mapping_counterexample :
    qualifiesSpec [Node.map NodeMap.nil] = true ∧
    should_sort_list [Node.map NodeMap.nil] = false :=
  ⟨rfl, rfl⟩

/-- Claim C4: on the claim's own example the pipeline emits two records,
not one.  `compare` yields `Added` at `[env, [A], valueFrom]` and
`Removed` at `[env, [A], value]`; `_combine_complementary_env_diffs`
then returns the stray `Removed` record followed by the combined
`Modified` record, because its first pass appends the `value` side before
the second pass combines the pair. -/
theorem c4_env_combine_two_records :
    compare L4doc R4doc [] =
      some [⟨ChangeType.added, ["env", "[A]", "valueFrom"], none,
              some (Node.map (mkNodeMap [("secretKeyRef", Node.str "s")]))⟩,
            ⟨ChangeType.removed, ["env", "[A]", "value"], some (Node.str "1"), none⟩] ∧
    combine_complementary_env_diffs
        [⟨ChangeType.added, ["env", "[A]", "valueFrom"], none,
            some (Node.map (mkNodeMap [("secretKeyRef", Node.str "s")]))⟩,
         ⟨ChangeType.removed, ["env", "[A]", "value"], some (Node.str "1"), none⟩] =
      [⟨ChangeType.removed, ["env", "[A]", "value"], some (Node.str "1"), none⟩,
       ⟨ChangeType.modified, ["env", "[A]"], some (Node.str "1"),
          some (Node.map (mkNodeMap [("secretKeyRef", Node.str "s")]))⟩] ∧
    (combine_complementary_env_diffs
        [⟨ChangeType.added, ["env", "[A]", "valueFrom"], none,
            some (Node.map (mkNodeMap [("secretKeyRef", Node.str "s")]))⟩,
         ⟨ChangeType.removed, ["env", "[A]", "value"], some (Node.str "1"), none⟩]).length = 2 :=
  ⟨rfl, rfl, rfl⟩

-- ==== C6: spec-modelled traversal order ====

mutual
/-- Spec-modelled: the locations of a document in traversal order
(top-down, keys before values, left-to-right), as paths. -/
def traversalPaths : Node → List String → List (List String)
  | .map m, p => p :: traversalPathsMap m p
  | .list l, p => p :: traversalPathsList l p 0
  | _, p => [p]
def traversalPathsMap : NodeMap → List String → List (List String)
  | .nil, _ => []
  | .cons k v t, p => traversalPaths v (p ++ [fieldSeg k]) ++ traversalPathsMap t p
def traversalPathsList : NodeList → List String → Nat → List (List String)
  | .nil, _, _ => []
  | .cons e t, p, i => traversalPaths e (p ++ [indexSeg i]) ++ traversalPathsList t p (i + 1)
end

/-- Position of a path in a traversal enumeration. -/
def idxOfP (x : List String) : List (List String) → Nat
  | [] => 0
  | a :: t => if a = x then 0 else idxOfP x t + 1

/-- Is a list of positions weakly increasing? -/
def sortedNats : List Nat → Bool
  | [] => true
  | [_] => true
  | a :: b :: t => decide (a ≤ b) && sortedNats (b :: t)

theorem c6_traversal_counterexample :
    compare (Node.map (mkNodeMap [("a", Node.int 1)]))
        (Node.map (mkNodeMap [("a", Node.int 2), ("b", Node.int 3)])) [] =
      some [⟨ChangeType.added, ["b"], none, some (Node.int 3)⟩,
            ⟨ChangeType.modified, ["a"], some (Node.int 1), some (Node.int 2)⟩] ∧
    traversalPaths (Node.map (mkNodeMap [("a", Node.int 2), ("b", Node.int 3)])) [] =
      [[], ["a"], ["b"]] ∧
    sortedNats (([⟨ChangeType.added, ["b"], none, some (Node.int 3)⟩,
        ⟨ChangeType.modified, ["a"], some (Node.int 1), some (Node.int 2)⟩] :
        List DiffItem).map (fun d => idxOfP d.path
          (traversalPaths (Node.map (mkNodeMap [("a", Node.int 2), ("b", Node.int 3)])) []))) =
      false :=
  ⟨rfl, rfl, rfl⟩

/-- Helper: when both sides normalize to mappings, one `compare` call
unfolds to the fold over the determinized Added/Removed prefixes
and common-key triples.  (The Python source iterates key sets here, whose
order is hash-dependent; the determinized order of `mapAdds`, `mapRems`
and `dictCommons` is a modelling choice, so claim-level statements use
this helper only up to permutation and phase structure.) -/
theorem compare_dict_unfold (l r : Node) (p : List String) (lm rm : NodeMap)
    (hl : normalize_data l = some (Node.map lm))
    (hr : normalize_data r = some (Node.map rm)) :
    compare l r p =
      compareFold compareSt
        (mapAdds lm.pairs rm.pairs p ++ mapRems lm.pairs rm.pairs p)
        (dictCommons lm.pairs rm.pairs p) := by
  unfold compare compareSt
  obtain ⟨k, hk⟩ : ∃ k, l.size + r.size = k + 1 :=
    ⟨l.size + r.size - 1, by have := size_pos l; omega⟩
  rw [hk]
  show compareBody (compareF k) [] l r p = _
  unfold compareBody
  rw [hl, hr]
  dsimp only
  rw [if_neg (by simp [tagOf])]
  rw [List.nil_append]
  apply compareFold_congr
  intro acc a b q hmem
  obtain ⟨key, hka, hkb, hq⟩ := commonsAux_mem fieldSeg hmem
  have hsa : a.size < l.size := size_child_map hl hka
  have hsb : b.size < r.size := size_child_map hr (alookup_mem hkb)
  exact (compareSt_eq_compareF (by omega)).symm

-- ==== C10: canonical form and fixed point ====

/-- Is a key list ascending (adjacent-pairs check)? -/
def isSortedStr : List String → Bool
  | [] => true
  | [_] => true
  | a :: b :: t => strLe a b && isSortedStr (b :: t)

mutual
/-- A tree in canonical form: every qualifying sequence has a derived
sort key for each element and is already ascending in those keys, and
all subtrees are canonical. -/
def canonicalForm : Node → Bool
  | .str _ => true
  | .int _ => true
  | .bool _ => true
  | .null => true
  | .map m => canonicalMap m
  | .list l =>
      canonicalList l &&
      (if should_sort_list l.toList then
        match mapO get_sort_key l.toList with
        | none => false
        | some ks => isSortedStr ks
      else true)
def canonicalList : NodeList → Bool
  | .nil => true
  | .cons e t => canonicalForm e && canonicalList t
def canonicalMap : NodeMap → Bool
  | .nil => true
  | .cons _ v t => canonicalForm v && canonicalMap t
end

theorem isSortedStr_pairwise : ∀ {ks : List String}, isSortedStr ks = true →
    ks.Pairwise (fun a b => strLe a b = true)
  | [], _ => List.Pairwise.nil
  | [a], _ => List.Pairwise.cons (by simp) List.Pairwise.nil
  | a :: b :: t, h => by
      simp only [isSortedStr, Bool.and_eq_true] at h
      have ht := isSortedStr_pairwise h.2
      refine List.pairwise_cons.mpr ⟨?h1, ht⟩
      intro x hx
      rcases List.mem_cons.mp hx with hx | hx
      · rw [hx]; exact h.1
      · exact strLe_trans h.1 ((List.pairwise_cons.mp ht).1 x hx)

theorem pairwise_zip_left {α β : Type} {R : α → α → Prop} :
    ∀ {ks : List α} {ns : List β}, ks.Pairwise R →
      (ks.zip ns).Pairwise (fun u v => R u.1 v.1)
  | [], _, _ => by simp
  | _ :: _, [], _ => by simp
  | k :: ks, n :: ns, h => by
      rcases List.pairwise_cons.mp h with ⟨hh, ht⟩
      rw [List.zip_cons_cons]
      refine List.pairwise_cons.mpr ⟨?h1, pairwise_zip_left ht⟩
      intro v hv
      cases v with
      | mk v1 v2 => exact hh v1 (List.of_mem_zip hv).1

mutual
theorem canonical_fixed : ∀ y : Node, canonicalForm y = true →
    normalize_data y = some y
  | .str s, _ => rfl
  | .int n, _ => rfl
  | .bool b, _ => rfl
  | .null, _ => rfl
  | .map m, h => by
      simp only [normalize_data, canonicalMap_fixed m h]
      rfl
  | .list l, h => by
      simp only [canonicalForm, Bool.and_eq_true] at h
      simp only [normalize_data, canonicalList_fixed l h.1]
      show sortedListResult l.toList l.toList = some (Node.list l)
      unfold sortedListResult
      by_cases hss : should_sort_list l.toList
      · rw [if_pos hss]
        rw [if_pos hss] at h
        cases hks : mapO get_sort_key l.toList with
        | none =>
            rw [hks] at h
            dsimp only at h
            exact absurd h.2 (by simp)
        | some ks =>
            rw [hks] at h
            dsimp only at h ⊢
            have hsorted : List.Sorted (keyLe (Prod.fst (β := Node))) (ks.zip l.toList) :=
              pairwise_zip_left (isSortedStr_pairwise h.2)
            rw [sortByKey_of_sorted Prod.fst (ks.zip l.toList) hsorted]
            rw [map_snd_zip_full ks l.toList (mapO_length hks)]
            rw [mkNodeList_toList]
      · rw [if_neg hss, mkNodeList_toList]
theorem canonicalList_fixed : ∀ l : NodeList, canonicalList l = true →
    normalizeList l = some l.toList
  | .nil, _ => rfl
  | .cons e t, h => by
      simp only [canonicalList, Bool.and_eq_true] at h
      simp only [normalizeList, canonical_fixed e h.1, canonicalList_fixed t h.2,
        NodeList.toList]
theorem canonicalMap_fixed : ∀ m : NodeMap, canonicalMap m = true →
    normalizeMap m = some m
  | .nil, _ => rfl
  | .cons k v t, h => by
      simp only [canonicalMap, Bool.and_eq_true] at h
      simp only [normalizeMap, canonical_fixed v h.1, canonicalMap_fixed t h.2]
end


def E1s : Node := .map (mkNodeMap [("k", .list (mkNodeList
  [.map (mkNodeMap [("a", .int 1)]), .map (mkNodeMap [("a", .int 2)])]))])
def Y10 : Node := .list (mkNodeList [E2n, E1s])
def Z10 : Node := .list (mkNodeList [E1s, E2n])

theorem c10_counterexample :
    normalize_data P10 = some Y10 ∧ normalize_data Y10 = some Z10 ∧ Y10 ≠ Z10 :=
  ⟨rfl, rfl, fun h => absurd (congrArg pyRepr h) (by decide)⟩

/-- Claim C10: the amended fixed-point property.  A tree in canonical
form — every qualifying sequence keyed and already ascending in its
derived keys, recursively — is a fixed point of `normalize_data`.  Full
idempotence is false: a derived sort key can be computed from a nested
structure that normalization reorders, which changes the key and makes
the second pass sort differently (see the counterexample). -/
theorem c10_canonical_fixed_point (y : Node) (h : canonicalForm y = true) :
    normalize_data y = some y :=
  canonical_fixed y h

theorem c10_canonical_fixed_point_witness :
    canonicalForm Z10 = true ∧ normalize_data Z10 = some Z10 := by
  have h : canonicalForm Z10 = true := by decide
  exact ⟨h, c10_canonical_fixed_point Z10 h⟩


-- ==== C1 helpers ====

theorem mapO_of_forall₂ {α β : Type} {f : α → Option β} :
    ∀ {l : List α} {m : List β}, List.Forall₂ (fun a b => f a = some b) l m →
      mapO f l = some m
  | [], [], _ => rfl
  | a :: l, b :: m, List.Forall₂.cons hh ht => by
      simp only [mapO, hh, mapO_of_forall₂ ht]

theorem forall₂_zip_of {α β γ : Type} {P : α → β → Prop} {Q : α → γ → Prop} :
    ∀ {l : List α} {ks : List β} {ns : List γ},
      List.Forall₂ P l ks → List.Forall₂ Q l ns →
      List.Forall₂ (fun a kn => P a kn.1 ∧ Q a kn.2) l (ks.zip ns)
  | [], [], [], _, _ => List.Forall₂.nil
  | a :: l, b :: ks, c :: ns, List.Forall₂.cons hb hbs, List.Forall₂.cons hc hcs => by
      rw [List.zip_cons_cons]
      exact List.Forall₂.cons ⟨hb, hc⟩ (forall₂_zip_of hbs hcs)

theorem keyNorm_eq {a : Node} {kn : String × Node}
    (h : (get_sort_key a).bind
        (fun k => (normalize_data a).map (fun v => (k, v))) = some kn) :
    get_sort_key a = some kn.1 ∧ normalize_data a = some kn.2 := by
  cases hk : get_sort_key a with
  | none => rw [hk] at h; simp at h
  | some k =>
      rw [hk] at h
      cases hv : normalize_data a with
      | none => rw [hv] at h; simp at h
      | some v =>
          rw [hv] at h
          simp only [Option.some_bind, Option.map_some', Option.some.injEq] at h
          rw [h.symm]
          exact ⟨rfl, rfl⟩

theorem mapO_perm_exists {α β : Type} (f : α → Option β) {l m : List α}
    (hperm : l.Perm m) :
    ∀ {ps : List β}, mapO f l = some ps → ∃ qs, mapO f m = some qs ∧ ps.Perm qs := by
  induction hperm with
  | nil =>
      intro ps h
      exact ⟨ps, h, List.Perm.refl ps⟩
  | @cons x l₁ m₁ hp ih =>
      intro ps h
      simp only [mapO] at h
      match hx : f x, hl : mapO f l₁ with
      | some b, some bs =>
          rw [hx, hl] at h
          simp only [Option.some.injEq] at h
          subst h
          obtain ⟨qs, hqs, hpq⟩ := ih hl
          exact ⟨b :: qs, by simp [mapO, hx, hqs], List.Perm.cons b hpq⟩
      | some b, none => rw [hx, hl] at h; simp at h
      | none, hh => rw [hx] at h; simp at h
  | swap x y l₁ =>
      intro ps h
      simp only [mapO] at h
      match hy : f y, hx : f x, hl : mapO f l₁ with
      | some b, some c, some bs =>
          rw [hy, hx, hl] at h
          simp only [Option.some.injEq] at h
          subst h
          exact ⟨c :: b :: bs, by simp [mapO, hy, hx, hl], List.Perm.swap c b bs⟩
      | some b, some c, none => rw [hy, hx, hl] at h; simp at h
      | some b, none, hh => rw [hy, hx] at h; simp at h
      | none, hh, hh2 => rw [hy] at h; simp at h
  | trans h₁ h₂ ih₁ ih₂ =>
      intro ps h
      obtain ⟨qs, hqs, hpq⟩ := ih₁ h
      obtain ⟨rs, hrs, hqr⟩ := ih₂ hqs
      exact ⟨rs, hrs, hpq.trans hqr⟩

theorem pairwise_of_forall₂ {α β : Type} {R : α → β → Prop} {P : α → α → Prop}
    {Q : β → β → Prop}
    (hPQ : ∀ a b x y, R a x → R b y → P a b → Q x y) :
    ∀ {l : List α} {m : List β}, List.Forall₂ R l m → l.Pairwise P → m.Pairwise Q
  | _, _, List.Forall₂.nil, _ => List.Pairwise.nil
  | _, _, List.Forall₂.cons hr ht, hp => by
      rcases List.pairwise_cons.mp hp with ⟨hhead, htail⟩
      refine List.pairwise_cons.mpr ⟨?h1, pairwise_of_forall₂ hPQ ht htail⟩
      intro y hy
      obtain ⟨a, ha, hra⟩ := forall₂_mem_right ht y hy
      exact hPQ _ _ _ _ hr hra (hhead a ha)

theorem normalizeList_of_forall₂ :
    ∀ {xs ns : List Node},
      List.Forall₂ (fun e n => normalize_data e = some n) xs ns →
      normalizeList (mkNodeList xs) = some ns
  | [], [], _ => rfl
  | x :: xs, n :: ns, List.Forall₂.cons hh ht => by
      simp only [mkNodeList, normalizeList, hh, normalizeList_of_forall₂ ht]

theorem zip_fst_snd {α β : Type} : ∀ (l : List (α × β)),
    (l.map Prod.fst).zip (l.map Prod.snd) = l
  | [] => rfl
  | (a, b) :: t => by
      simp only [List.map_cons, List.zip_cons_cons, zip_fst_snd t]


theorem normalize_perm_eq {l m : List Node} {n : Node}
    (hperm : l.Perm m)
    (hq : should_sort_list l = true) (hq2 : should_sort_list m = true)
    (hdk : l.Pairwise (fun u v => get_sort_key u ≠ get_sort_key v))
    (hn : normalize_data (Node.list (mkNodeList l)) = some n) :
    normalize_data (Node.list (mkNodeList m)) = some n := by
  have hLl : (mkNodeList l).toList = l := toList_mkNodeList l
  have hLm : (mkNodeList m).toList = m := toList_mkNodeList m
  simp only [normalize_data, hLl, Option.bind_eq_some] at hn
  obtain ⟨nl, hnl, hsr⟩ := hn
  rcases sortedListResult_cases hsr with ⟨hs1, ks, hks, hy⟩ | ⟨hs0, hy⟩
  · have h₂ : List.Forall₂ (fun e ne => normalize_data e = some ne) l nl := by
      have h3 := normalizeList_forall₂ (mkNodeList l) nl hnl
      rwa [hLl] at h3
    have h₁ : List.Forall₂ (fun e k => get_sort_key e = some k) l ks :=
      mapO_forall₂ get_sort_key hks
    have hzip : List.Forall₂
        (fun a kn => get_sort_key a = some kn.1 ∧ normalize_data a = some kn.2)
        l (ks.zip nl) := forall₂_zip_of h₁ h₂
    have hF : mapO (fun a => (get_sort_key a).bind
        (fun k => (normalize_data a).map (fun v => (k, v)))) l = some (ks.zip nl) :=
      mapO_of_forall₂ (hzip.imp (fun a kn hk => by rw [hk.1, hk.2]; rfl))
    obtain ⟨qs, hqs, hpq⟩ := mapO_perm_exists _ hperm hF
    have hFm := mapO_forall₂ _ hqs
    have hkm : List.Forall₂ (fun a k => get_sort_key a = some k) m (qs.map Prod.fst) :=
      List.forall₂_map_right_iff.mpr (hFm.imp (fun a kn hk => (keyNorm_eq hk).1))
    have hnm : List.Forall₂ (fun a v => normalize_data a = some v) m (qs.map Prod.snd) :=
      List.forall₂_map_right_iff.mpr (hFm.imp (fun a kn hk => (keyNorm_eq hk).2))
    have hdkz : (ks.zip nl).Pairwise (fun u v => u.1 ≠ v.1) :=
      pairwise_of_forall₂
        (fun a b x y hx hy2 hab hxy => hab (by rw [hx.1, hy2.1, hxy])) hzip hdk
    simp only [normalize_data, hLm, Option.bind_eq_some]
    refine ⟨qs.map Prod.snd, normalizeList_of_forall₂ hnm, ?hh⟩
    unfold sortedListResult
    rw [if_pos hq2, mapO_of_forall₂ hkm]
    dsimp only
    rw [zip_fst_snd qs,
      ← sortByKey_eq_of_perm Prod.fst (ks.zip nl) qs hpq hdkz, hy]
  · rw [hq] at hs0
    exact absurd hs0 (by simp)


/-- Claim C1: the amended reorder invariance.  For a qualifying sequence
whose elements have pairwise distinct derived sort keys (and whose
permutation still qualifies), comparing the document against the
permuted document yields an empty Change Set.  The unrestricted claim —
including two siblings with an identical key — is false, because the
keyed lookup map keeps only the last element per key (see the
counterexample). -/
theorem c1_reorder_invariance (l m : List Node) (p : List String) (n : Node)
    (hperm : l.Perm m)
    (hq : should_sort_list l = true) (hq2 : should_sort_list m = true)
    (hdk : l.Pairwise (fun u v => get_sort_key u ≠ get_sort_key v))
    (hw : wf_node (Node.list (mkNodeList l)) = true)
    (hn : normalize_data (Node.list (mkNodeList l)) = some n) :
    compare (Node.list (mkNodeList l)) (Node.list (mkNodeList m)) p = some [] :=
  compare_empty_of_norm_eq hn (normalize_perm_eq hperm hq hq2 hdk hn)
    (wf_pres _ n hn hw)

def Ba : Node := .map (mkNodeMap [("name", .str "a")])
def Bb : Node := .map (mkNodeMap [("name", .str "b")])

theorem c1_reorder_invariance_witness :
    should_sort_list [Bb, Ba] = true ∧
    compare (Node.list (mkNodeList [Bb, Ba])) (Node.list (mkNodeList [Ba, Bb])) [] =
      some [] :=
  ⟨rfl, c1_reorder_invariance [Bb, Ba] [Ba, Bb] [] (Node.list (mkNodeList [Ba, Bb]))
    (List.Perm.swap Ba Bb [])
    rfl rfl
    (by
      refine List.pairwise_cons.mpr ⟨?h1, List.pairwise_singleton _ _⟩
      intro v hv
      rw [List.mem_singleton.mp hv]
      decide)
    (by decide) rfl⟩

def A1e : Node := .map (mkNodeMap [("x", .int 1), ("y", .int 1)])
def A2e : Node := .map (mkNodeMap [("x", .int 1), ("y", .int 2)])

theorem c1_duplicate_key_counterexample :
    should_sort_list [A1e, A2e] = true ∧
    wf_node (Node.list (mkNodeList [A1e, A2e])) = true ∧
    ([A1e, A2e] : List Node).Perm [A2e, A1e] ∧
    compare (Node.list (mkNodeList [A1e, A2e]))
        (Node.list (mkNodeList [A2e, A1e])) [] =
      some [⟨ChangeType.modified, [keySeg "1", "y"],
        some (Node.int 2), some (Node.int 1)⟩] ∧
    some [⟨ChangeType.modified, [keySeg "1", "y"],
        some (Node.int 2), some (Node.int 1)⟩] ≠
      (some [] : Option (List DiffItem)) :=
  ⟨rfl, by decide, List.Perm.swap A2e A1e [], rfl, fun h => by simp at h⟩


/-- `c` is an immediate child of `n` (a sequence element or a mapping
value). -/
def childOf (c n : Node) : Prop :=
  (∃ l : NodeList, n = Node.list l ∧ c ∈ l.toList) ∨
  (∃ m : NodeMap, ∃ k : String, n = Node.map m ∧ (k, c) ∈ m.pairs)

/-- `carriedFrom x v`: the value `v` is obtained from the document `x`
exactly the way the comparator obtains the values it stores in Change
Records: by normalizing, taking immediate subtrees, and re-normalizing
at each recursion level (`compare` calls `normalize_data` on its
arguments at every level, so values in deeper records are iterated
normalizations of subtrees of `x`). -/
inductive carriedFrom : Node → Node → Prop where
  | norm : ∀ {x n : Node}, normalize_data x = some n → carriedFrom x n
  | child : ∀ {x n c : Node}, carriedFrom x n → childOf c n → carriedFrom x c
  | renorm : ∀ {x c n : Node}, carriedFrom x c → normalize_data c = some n →
      carriedFrom x n

theorem carriedFrom_trans {x y v : Node} (hxy : carriedFrom x y)
    (hyv : carriedFrom y v) : carriedFrom x v := by
  induction hyv with
  | norm hn => exact carriedFrom.renorm hxy hn
  | child _ hchild ih => exact carriedFrom.child ih hchild
  | renorm _ hn ih => exact carriedFrom.renorm ih hn

/-- The value provenance a Change Record must satisfy, relative to the
compared documents `L` (left) and `R` (right): an `Added` record has no
old value and its new value is carried from the right-hand document; a
`Removed` record has no new value and its old value is carried from the
left-hand document; a `Modified` record carries a value from each side. -/
def carriedInv (L R : Node) (d : DiffItem) : Prop :=
  (d.change_type = ChangeType.added → d.old_value = none ∧
    ∃ b, d.new_value = some b ∧ carriedFrom R b) ∧
  (d.change_type = ChangeType.removed → d.new_value = none ∧
    ∃ a, d.old_value = some a ∧ carriedFrom L a) ∧
  (d.change_type = ChangeType.modified → ∃ a b, d.old_value = some a ∧
    d.new_value = some b ∧ carriedFrom L a ∧ carriedFrom R b)

theorem carriedInv_added {L R : Node} {q : List String} {v : Node}
    (hv : carriedFrom R v) :
    carriedInv L R ⟨ChangeType.added, q, none, some v⟩ := by
  refine ⟨fun _ => ⟨rfl, v, rfl, hv⟩, fun hc => ?h1, fun hc => ?h2⟩ <;> simp at hc

theorem carriedInv_removed {L R : Node} {q : List String} {v : Node}
    (hv : carriedFrom L v) :
    carriedInv L R ⟨ChangeType.removed, q, some v, none⟩ := by
  refine ⟨fun hc => ?h1, fun _ => ⟨rfl, v, rfl, hv⟩, fun hc => ?h2⟩ <;> simp at hc

theorem carriedInv_modified {L R : Node} {q : List String} {a b : Node}
    (ha : carriedFrom L a) (hb : carriedFrom R b) :
    carriedInv L R ⟨ChangeType.modified, q, some a, some b⟩ := by
  refine ⟨fun hc => ?h1, fun hc => ?h2, fun _ => ⟨a, b, rfl, rfl, ha, hb⟩⟩ <;> simp at hc

theorem mem_mapAdds {lps rps : List (String × Node)} {p : List String} {d : DiffItem}
    (hd : d ∈ mapAdds lps rps p) :
    ∃ kv ∈ rps, d = ⟨ChangeType.added, p ++ [fieldSeg kv.1], none, some kv.2⟩ := by
  simp only [mapAdds, List.mem_map, List.mem_filter] at hd
  obtain ⟨kv, ⟨hkv, _⟩, he⟩ := hd
  exact ⟨kv, hkv, he.symm⟩

theorem mem_mapRems {lps rps : List (String × Node)} {p : List String} {d : DiffItem}
    (hd : d ∈ mapRems lps rps p) :
    ∃ kv ∈ lps, d = ⟨ChangeType.removed, p ++ [fieldSeg kv.1], some kv.2, none⟩ := by
  simp only [mapRems, List.mem_map, List.mem_filter] at hd
  obtain ⟨kv, ⟨hkv, _⟩, he⟩ := hd
  exact ⟨kv, hkv, he.symm⟩

theorem mem_keyedAdds {lM rM : List (String × Node)} {p : List String} {d : DiffItem}
    (hd : d ∈ keyedAdds lM rM p) :
    ∃ kv ∈ rM, d = ⟨ChangeType.added, p ++ [keySeg kv.1], none, some kv.2⟩ := by
  simp only [keyedAdds, List.mem_map, List.mem_filter] at hd
  obtain ⟨kv, ⟨hkv, _⟩, he⟩ := hd
  exact ⟨kv, hkv, he.symm⟩

theorem mem_keyedRems {lM rM : List (String × Node)} {p : List String} {d : DiffItem}
    (hd : d ∈ keyedRems lM rM p) :
    ∃ kv ∈ lM, d = ⟨ChangeType.removed, p ++ [keySeg kv.1], some kv.2, none⟩ := by
  simp only [keyedRems, List.mem_map, List.mem_filter] at hd
  obtain ⟨kv, ⟨hkv, _⟩, he⟩ := hd
  exact ⟨kv, hkv, he.symm⟩

theorem mem_addedIdx {p : List String} :
    ∀ {i : Nat} {xs : List Node} {d : DiffItem}, d ∈ addedIdxRecords p i xs →
      ∃ j v, v ∈ xs ∧ d = ⟨ChangeType.added, p ++ [indexSeg j], none, some v⟩
  | i, [], d, hd => by simp [addedIdxRecords] at hd
  | i, x :: xs, d, hd => by
      simp only [addedIdxRecords, List.mem_cons] at hd
      rcases hd with hd | hd
      · exact ⟨i, x, List.mem_cons_self x xs, hd⟩
      · obtain ⟨j, v, hv, he⟩ := mem_addedIdx hd
        exact ⟨j, v, List.mem_cons_of_mem x hv, he⟩

theorem mem_removedIdx {p : List String} :
    ∀ {i : Nat} {xs : List Node} {d : DiffItem}, d ∈ removedIdxRecords p i xs →
      ∃ j v, v ∈ xs ∧ d = ⟨ChangeType.removed, p ++ [indexSeg j], some v, none⟩
  | i, [], d, hd => by simp [removedIdxRecords] at hd
  | i, x :: xs, d, hd => by
      simp only [removedIdxRecords, List.mem_cons] at hd
      rcases hd with hd | hd
      · exact ⟨i, x, List.mem_cons_self x xs, hd⟩
      · obtain ⟨j, v, hv, he⟩ := mem_removedIdx hd
        exact ⟨j, v, List.mem_cons_of_mem x hv, he⟩

theorem mem_orderedExtras {lls rls : List Node} {p : List String} {d : DiffItem}
    (hd : d ∈ orderedExtras lls rls p) :
    (∃ j v, v ∈ rls ∧ d = ⟨ChangeType.added, p ++ [indexSeg j], none, some v⟩) ∨
    (∃ j v, v ∈ lls ∧ d = ⟨ChangeType.removed, p ++ [indexSeg j], some v, none⟩) := by
  unfold orderedExtras at hd
  by_cases h1 : lls.length < rls.length
  · rw [if_pos h1] at hd
    obtain ⟨j, v, hv, he⟩ := mem_addedIdx hd
    exact Or.inl ⟨j, v, List.drop_subset _ _ hv, he⟩
  · rw [if_neg h1] at hd
    by_cases h2 : rls.length < lls.length
    · rw [if_pos h2] at hd
      obtain ⟨j, v, hv, he⟩ := mem_removedIdx hd
      exact Or.inr ⟨j, v, List.drop_subset _ _ hv, he⟩
    · rw [if_neg h2] at hd
      exact absurd hd (List.not_mem_nil d)

theorem compareFold_pred {P : DiffItem → Prop}
    {cmp : List DiffItem → Node → Node → List String → Option (List DiffItem)} :
    ∀ {ts : List (List String × Node × Node)},
      (∀ acc' a b q out', (q, a, b) ∈ ts → cmp acc' a b q = some out' →
        ∀ d ∈ out', d ∈ acc' ∨ P d) →
      ∀ acc out, compareFold cmp acc ts = some out →
        ∀ d ∈ out, d ∈ acc ∨ P d
  | [], _, acc, out, h, d, hd => by
      simp only [compareFold] at h
      injection h with h2
      subst h2
      exact Or.inl hd
  | (q, a, b) :: rest, hcmp, acc, out, h, d, hd => by
      simp only [compareFold] at h
      cases h0 : cmp acc a b q with
      | none => rw [h0] at h; simp at h
      | some acc₂ =>
          rw [h0] at h
          rcases compareFold_pred
            (fun acc' a' b' q' out' hm => hcmp acc' a' b' q' out' (List.mem_cons_of_mem _ hm))
            acc₂ out h d hd with h2 | h2
          · rcases hcmp acc a b q acc₂ (List.mem_cons_self _ _) h0 d h2 with h3 | h3
            · exact Or.inl h3
            · exact Or.inr h3
          · exact Or.inr h2


theorem compareF_carried :
    ∀ (f : Nat) (acc : List DiffItem) (L R l r : Node) (p : List String)
      (out : List DiffItem),
      (∀ v, carriedFrom l v → carriedFrom L v) →
      (∀ v, carriedFrom r v → carriedFrom R v) →
      compareF f acc l r p = some out →
      ∀ d ∈ out, d ∈ acc ∨ carriedInv L R d
  | 0, acc, L, R, l, r, p, out, _, _, h => by simp [compareF] at h
  | f + 1, acc, L, R, l, r, p, out, hL, hR, h => by
      simp only [compareF, compareBody] at h
      cases hln : normalize_data l with
      | none => rw [hln] at h; simp at h
      | some ln =>
          cases hrn : normalize_data r with
          | none => rw [hln, hrn] at h; simp at h
          | some rn =>
              rw [hln, hrn] at h
              dsimp only at h
              by_cases ht : tagOf ln ≠ tagOf rn
              · rw [if_pos ht] at h
                injection h with h2
                subst h2
                intro d hd
                rcases List.mem_append.mp hd with hd | hd
                · exact Or.inl hd
                · simp only [List.mem_singleton] at hd
                  subst hd
                  exact Or.inr (carriedInv_modified
                    (hL ln (carriedFrom.norm hln)) (hR rn (carriedFrom.norm hrn)))
              · rw [if_neg ht] at h
                match ln, rn, hln, hrn, h with
                | .map lm, .map rm, hln, hrn, h =>
                    dsimp only at h
                    intro d hd
                    rcases compareFold_pred
                      (fun acc' a b q out' hm hc => by
                        obtain ⟨k, hka, hkb, hq⟩ := commonsAux_mem fieldSeg hm
                        exact compareF_carried f acc' L R a b q out'
                          (fun v hv => hL v (carriedFrom_trans
                            (carriedFrom.child (carriedFrom.norm hln)
                              (Or.inr ⟨lm, k, rfl, hka⟩)) hv))
                          (fun v hv => hR v (carriedFrom_trans
                            (carriedFrom.child (carriedFrom.norm hrn)
                              (Or.inr ⟨rm, k, rfl, alookup_mem hkb⟩)) hv))
                          hc)
                      _ out h d hd with h2 | h2
                    · rcases List.mem_append.mp h2 with h3 | h3
                      · rcases List.mem_append.mp h3 with h4 | h4
                        · exact Or.inl h4
                        · obtain ⟨kv, hkv, he⟩ := mem_mapAdds h4
                          subst he
                          exact Or.inr (carriedInv_added (hR kv.2
                            (carriedFrom.child (carriedFrom.norm hrn)
                              (Or.inr ⟨rm, kv.1, rfl, hkv⟩))))
                      · obtain ⟨kv, hkv, he⟩ := mem_mapRems h3
                        subst he
                        exact Or.inr (carriedInv_removed (hL kv.2
                          (carriedFrom.child (carriedFrom.norm hln)
                            (Or.inr ⟨lm, kv.1, rfl, hkv⟩))))
                    · exact Or.inr h2
                | .list ll, .list rl, hln, hrn, h =>
                    dsimp only at h
                    by_cases hs : should_sort_list ll.toList && should_sort_list rl.toList
                    · rw [if_pos hs] at h
                      cases hlM : buildKeyMap ll.toList with
                      | none => rw [hlM] at h; simp at h
                      | some lM =>
                          cases hrM : buildKeyMap rl.toList with
                          | none => rw [hlM, hrM] at h; simp at h
                          | some rM =>
                              rw [hlM, hrM] at h
                              dsimp only at h
                              intro d hd
                              rcases compareFold_pred
                                (fun acc' a b q out' hm hc => by
                                  obtain ⟨k, hka, hkb, hq⟩ := commonsAux_mem keySeg hm
                                  exact compareF_carried f acc' L R a b q out'
                                    (fun v hv => hL v (carriedFrom_trans
                                      (carriedFrom.child (carriedFrom.norm hln)
                                        (Or.inl ⟨ll, rfl, buildKeyMap_val_mem hlM hka⟩)) hv))
                                    (fun v hv => hR v (carriedFrom_trans
                                      (carriedFrom.child (carriedFrom.norm hrn)
                                        (Or.inl ⟨rl, rfl,
                                          buildKeyMap_val_mem hrM (alookup_mem hkb)⟩)) hv))
                                    hc)
                                _ out h d hd with h2 | h2
                              · rcases List.mem_append.mp h2 with h3 | h3
                                · rcases List.mem_append.mp h3 with h4 | h4
                                  · exact Or.inl h4
                                  · obtain ⟨kv, hkv, he⟩ := mem_keyedAdds h4
                                    subst he
                                    exact Or.inr (carriedInv_added (hR kv.2
                                      (carriedFrom.child (carriedFrom.norm hrn)
                                        (Or.inl ⟨rl, rfl, buildKeyMap_val_mem hrM hkv⟩))))
                                · obtain ⟨kv, hkv, he⟩ := mem_keyedRems h3
                                  subst he
                                  exact Or.inr (carriedInv_removed (hL kv.2
                                    (carriedFrom.child (carriedFrom.norm hln)
                                      (Or.inl ⟨ll, rfl, buildKeyMap_val_mem hlM hkv⟩))))
                              · exact Or.inr h2
                    · rw [if_neg hs] at h
                      cases h0 : compareFold (compareF f) acc
                          (zipIdxTriples p 0 ll.toList rl.toList) with
                      | none => rw [h0] at h; simp at h
                      | some acc₂ =>
                          rw [h0] at h
                          injection h with h2
                          subst h2
                          intro d hd
                          rcases List.mem_append.mp hd with hd | hd
                          · exact compareFold_pred
                              (fun acc' a b q out' hm hc => by
                                obtain ⟨hma, hmb⟩ := zipIdxTriples_mem hm
                                exact compareF_carried f acc' L R a b q out'
                                  (fun v hv => hL v (carriedFrom_trans
                                    (carriedFrom.child (carriedFrom.norm hln)
                                      (Or.inl ⟨ll, rfl, hma⟩)) hv))
                                  (fun v hv => hR v (carriedFrom_trans
                                    (carriedFrom.child (carriedFrom.norm hrn)
                                      (Or.inl ⟨rl, rfl, hmb⟩)) hv))
                                  hc)
                              acc acc₂ h0 d hd
                          · rcases mem_orderedExtras hd with ⟨j, v, hv, he⟩ | ⟨j, v, hv, he⟩
                            · subst he
                              exact Or.inr (carriedInv_added (hR v
                                (carriedFrom.child (carriedFrom.norm hrn)
                                  (Or.inl ⟨rl, rfl, hv⟩))))
                            · subst he
                              exact Or.inr (carriedInv_removed (hL v
                                (carriedFrom.child (carriedFrom.norm hln)
                                  (Or.inl ⟨ll, rfl, hv⟩))))
                | .str s, .str s2, hln, hrn, h =>
                    dsimp only at h
                    by_cases he : scalarEq (Node.str s) (Node.str s2) = true
                    · rw [if_pos he] at h
                      injection h with h2
                      subst h2
                      exact fun d hd => Or.inl hd
                    · rw [if_neg he] at h
                      injection h with h2
                      subst h2
                      intro d hd
                      rcases List.mem_append.mp hd with hd | hd
                      · exact Or.inl hd
                      · simp only [List.mem_singleton] at hd
                        subst hd
                        exact Or.inr (carriedInv_modified
                          (hL _ (carriedFrom.norm hln)) (hR _ (carriedFrom.norm hrn)))
                | .int n₀, .int n₁, hln, hrn, h =>
                    dsimp only at h
                    by_cases he : scalarEq (Node.int n₀) (Node.int n₁) = true
                    · rw [if_pos he] at h
                      injection h with h2
                      subst h2
                      exact fun d hd => Or.inl hd
                    · rw [if_neg he] at h
                      injection h with h2
                      subst h2
                      intro d hd
                      rcases List.mem_append.mp hd with hd | hd
                      · exact Or.inl hd
                      · simp only [List.mem_singleton] at hd
                        subst hd
                        exact Or.inr (carriedInv_modified
                          (hL _ (carriedFrom.norm hln)) (hR _ (carriedFrom.norm hrn)))
                | .bool b₀, .bool b₁, hln, hrn, h =>
                    dsimp only at h
                    by_cases he : scalarEq (Node.bool b₀) (Node.bool b₁) = true
                    · rw [if_pos he] at h
                      injection h with h2
                      subst h2
                      exact fun d hd => Or.inl hd
                    · rw [if_neg he] at h
                      injection h with h2
                      subst h2
                      intro d hd
                      rcases List.mem_append.mp hd with hd | hd
                      · exact Or.inl hd
                      · simp only [List.mem_singleton] at hd
                        subst hd
                        exact Or.inr (carriedInv_modified
                          (hL _ (carriedFrom.norm hln)) (hR _ (carriedFrom.norm hrn)))
                | .null, .null, hln, hrn, h =>
                    dsimp only at h
                    rw [if_pos (show scalarEq Node.null Node.null = true from rfl)] at h
                    injection h with h2
                    subst h2
                    exact fun d hd => Or.inl hd
                | .str s, .int n₁, _, _, h => simp [tagOf] at ht
                | .str s, .bool b₁, _, _, h => simp [tagOf] at ht
                | .str s, .null, _, _, h => simp [tagOf] at ht
                | .str s, .list rl, _, _, h => simp [tagOf] at ht
                | .str s, .map rm, _, _, h => simp [tagOf] at ht
                | .int n₀, .str s2, _, _, h => simp [tagOf] at ht
                | .int n₀, .bool b₁, _, _, h => simp [tagOf] at ht
                | .int n₀, .null, _, _, h => simp [tagOf] at ht
                | .int n₀, .list rl, _, _, h => simp [tagOf] at ht
                | .int n₀, .map rm, _, _, h => simp [tagOf] at ht
                | .bool b₀, .str s2, _, _, h => simp [tagOf] at ht
                | .bool b₀, .int n₁, _, _, h => simp [tagOf] at ht
                | .bool b₀, .null, _, _, h => simp [tagOf] at ht
                | .bool b₀, .list rl, _, _, h => simp [tagOf] at ht
                | .bool b₀, .map rm, _, _, h => simp [tagOf] at ht
                | .null, .str s2, _, _, h => simp [tagOf] at ht
                | .null, .int n₁, _, _, h => simp [tagOf] at ht
                | .null, .bool b₁, _, _, h => simp [tagOf] at ht
                | .null, .list rl, _, _, h => simp [tagOf] at ht
                | .null, .map rm, _, _, h => simp [tagOf] at ht
                | .list ll, .str s2, _, _, h => simp [tagOf] at ht
                | .list ll, .int n₁, _, _, h => simp [tagOf] at ht
                | .list ll, .bool b₁, _, _, h => simp [tagOf] at ht
                | .list ll, .null, _, _, h => simp [tagOf] at ht
                | .list ll, .map rm, _, _, h => simp [tagOf] at ht
                | .map lm, .str s2, _, _, h => simp [tagOf] at ht
                | .map lm, .int n₁, _, _, h => simp [tagOf] at ht
                | .map lm, .bool b₁, _, _, h => simp [tagOf] at ht
                | .map lm, .null, _, _, h => simp [tagOf] at ht
                | .map lm, .list rl, _, _, h => simp [tagOf] at ht


theorem zipIdxTriples_path {p : List String} :
    ∀ {i : Nat} {as bs : List Node} {q : List String} {a b : Node},
      (q, a, b) ∈ zipIdxTriples p i as bs → ∃ j, q = p ++ [indexSeg j]
  | i, [], bs, q, a, b, h => by simp [zipIdxTriples] at h
  | i, x :: xs, [], q, a, b, h => by simp [zipIdxTriples] at h
  | i, x :: xs, y :: ys, q, a, b, h => by
      simp only [zipIdxTriples, List.mem_cons] at h
      rcases h with h | h
      · injection h with h1 h2
        exact ⟨i, h1⟩
      · exact zipIdxTriples_path h

theorem compareF_path_prefix :
    ∀ (f : Nat) (acc : List DiffItem) (l r : Node) (p : List String)
      (out : List DiffItem),
      compareF f acc l r p = some out →
      ∀ d ∈ out, d ∈ acc ∨ ∃ t, d.path = p ++ t
  | 0, acc, l, r, p, out, h => by simp [compareF] at h
  | f + 1, acc, l, r, p, out, h => by
      simp only [compareF, compareBody] at h
      cases hln : normalize_data l with
      | none => rw [hln] at h; simp at h
      | some ln =>
          cases hrn : normalize_data r with
          | none => rw [hln, hrn] at h; simp at h
          | some rn =>
              rw [hln, hrn] at h
              dsimp only at h
              by_cases ht : tagOf ln ≠ tagOf rn
              · rw [if_pos ht] at h
                injection h with h2
                subst h2
                intro d hd
                rcases List.mem_append.mp hd with hd | hd
                · exact Or.inl hd
                · simp only [List.mem_singleton] at hd
                  subst hd
                  exact Or.inr ⟨[], (List.append_nil p).symm⟩
              · rw [if_neg ht] at h
                match ln, rn, h with
                | .map lm, .map rm, h =>
                    dsimp only at h
                    intro d hd
                    rcases compareFold_pred (P := fun d => ∃ t, d.path = p ++ t)
                      (fun acc' a b q out' hm hc d hd => by
                        obtain ⟨k, hka, hkb, hq⟩ := commonsAux_mem fieldSeg hm
                        rcases compareF_path_prefix f acc' a b q out' hc d hd
                          with h3 | ⟨t, h3⟩
                        · exact Or.inl h3
                        · exact Or.inr ⟨fieldSeg k :: t, by rw [h3, hq]; simp⟩)
                      _ out h d hd with h2 | h2
                    · rcases List.mem_append.mp h2 with h3 | h3
                      · rcases List.mem_append.mp h3 with h4 | h4
                        · exact Or.inl h4
                        · obtain ⟨kv, hkv, he⟩ := mem_mapAdds h4
                          subst he
                          exact Or.inr ⟨[fieldSeg kv.1], rfl⟩
                      · obtain ⟨kv, hkv, he⟩ := mem_mapRems h3
                        subst he
                        exact Or.inr ⟨[fieldSeg kv.1], rfl⟩
                    · exact Or.inr h2
                | .list ll, .list rl, h =>
                    dsimp only at h
                    by_cases hs : should_sort_list ll.toList && should_sort_list rl.toList
                    · rw [if_pos hs] at h
                      cases hlM : buildKeyMap ll.toList with
                      | none => rw [hlM] at h; simp at h
                      | some lM =>
                          cases hrM : buildKeyMap rl.toList with
                          | none => rw [hlM, hrM] at h; simp at h
                          | some rM =>
                              rw [hlM, hrM] at h
                              dsimp only at h
                              intro d hd
                              rcases compareFold_pred (P := fun d => ∃ t, d.path = p ++ t)
                                (fun acc' a b q out' hm hc d hd => by
                                  obtain ⟨k, hka, hkb, hq⟩ := commonsAux_mem keySeg hm
                                  rcases compareF_path_prefix f acc' a b q out' hc d hd
                                    with h3 | ⟨t, h3⟩
                                  · exact Or.inl h3
                                  · exact Or.inr ⟨keySeg k :: t, by rw [h3, hq]; simp⟩)
                                _ out h d hd with h2 | h2
                              · rcases List.mem_append.mp h2 with h3 | h3
                                · rcases List.mem_append.mp h3 with h4 | h4
                                  · exact Or.inl h4
                                  · obtain ⟨kv, hkv, he⟩ := mem_keyedAdds h4
                                    subst he
                                    exact Or.inr ⟨[keySeg kv.1], rfl⟩
                                · obtain ⟨kv, hkv, he⟩ := mem_keyedRems h3
                                  subst he
                                  exact Or.inr ⟨[keySeg kv.1], rfl⟩
                              · exact Or.inr h2
                    · rw [if_neg hs] at h
                      cases h0 : compareFold (compareF f) acc
                          (zipIdxTriples p 0 ll.toList rl.toList) with
                      | none => rw [h0] at h; simp at h
                      | some acc₂ =>
                          rw [h0] at h
                          injection h with h2
                          subst h2
                          intro d hd
                          rcases List.mem_append.mp hd with hd | hd
                          · exact compareFold_pred (P := fun d => ∃ t, d.path = p ++ t)
                              (fun acc' a b q out' hm hc d hd => by
                                obtain ⟨j, hq⟩ := zipIdxTriples_path hm
                                rcases compareF_path_prefix f acc' a b q out' hc d hd
                                  with h3 | ⟨t, h3⟩
                                · exact Or.inl h3
                                · exact Or.inr ⟨indexSeg j :: t, by rw [h3, hq]; simp⟩)
                              acc acc₂ h0 d hd
                          · rcases mem_orderedExtras hd with ⟨j, v, hv, he⟩ | ⟨j, v, hv, he⟩
                            · subst he
                              exact Or.inr ⟨[indexSeg j], rfl⟩
                            · subst he
                              exact Or.inr ⟨[indexSeg j], rfl⟩
                | .str s, .str s2, h =>
                    dsimp only at h
                    by_cases he : scalarEq (Node.str s) (Node.str s2) = true
                    · rw [if_pos he] at h
                      injection h with h2
                      subst h2
                      exact fun d hd => Or.inl hd
                    · rw [if_neg he] at h
                      injection h with h2
                      subst h2
                      intro d hd
                      rcases List.mem_append.mp hd with hd | hd
                      · exact Or.inl hd
                      · simp only [List.mem_singleton] at hd
                        subst hd
                        exact Or.inr ⟨[], (List.append_nil p).symm⟩
                | .int n₀, .int n₁, h =>
                    dsimp only at h
                    by_cases he : scalarEq (Node.int n₀) (Node.int n₁) = true
                    · rw [if_pos he] at h
                      injection h with h2
                      subst h2
                      exact fun d hd => Or.inl hd
                    · rw [if_neg he] at h
                      injection h with h2
                      subst h2
                      intro d hd
                      rcases List.mem_append.mp hd with hd | hd
                      · exact Or.inl hd
                      · simp only [List.mem_singleton] at hd
                        subst hd
                        exact Or.inr ⟨[], (List.append_nil p).symm⟩
                | .bool b₀, .bool b₁, h =>
                    dsimp only at h
                    by_cases he : scalarEq (Node.bool b₀) (Node.bool b₁) = true
                    · rw [if_pos he] at h
                      injection h with h2
                      subst h2
                      exact fun d hd => Or.inl hd
                    · rw [if_neg he] at h
                      injection h with h2
                      subst h2
                      intro d hd
                      rcases List.mem_append.mp hd with hd | hd
                      · exact Or.inl hd
                      · simp only [List.mem_singleton] at hd
                        subst hd
                        exact Or.inr ⟨[], (List.append_nil p).symm⟩
                | .null, .null, h =>
                    dsimp only at h
                    rw [if_pos (show scalarEq Node.null Node.null = true from rfl)] at h
                    injection h with h2
                    subst h2
                    exact fun d hd => Or.inl hd
                | .str s, .int n₁, h => simp [tagOf] at ht
                | .str s, .bool b₁, h => simp [tagOf] at ht
                | .str s, .null, h => simp [tagOf] at ht
                | .str s, .list rl, h => simp [tagOf] at ht
                | .str s, .map rm, h => simp [tagOf] at ht
                | .int n₀, .str s2, h => simp [tagOf] at ht
                | .int n₀, .bool b₁, h => simp [tagOf] at ht
                | .int n₀, .null, h => simp [tagOf] at ht
                | .int n₀, .list rl, h => simp [tagOf] at ht
                | .int n₀, .map rm, h => simp [tagOf] at ht
                | .bool b₀, .str s2, h => simp [tagOf] at ht
                | .bool b₀, .int n₁, h => simp [tagOf] at ht
                | .bool b₀, .null, h => simp [tagOf] at ht
                | .bool b₀, .list rl, h => simp [tagOf] at ht
                | .bool b₀, .map rm, h => simp [tagOf] at ht
                | .null, .str s2, h => simp [tagOf] at ht
                | .null, .int n₁, h => simp [tagOf] at ht
                | .null, .bool b₁, h => simp [tagOf] at ht
                | .null, .list rl, h => simp [tagOf] at ht
                | .null, .map rm, h => simp [tagOf] at ht
                | .list ll, .str s2, h => simp [tagOf] at ht
                | .list ll, .int n₁, h => simp [tagOf] at ht
                | .list ll, .bool b₁, h => simp [tagOf] at ht
                | .list ll, .null, h => simp [tagOf] at ht
                | .list ll, .map rm, h => simp [tagOf] at ht
                | .map lm, .str s2, h => simp [tagOf] at ht
                | .map lm, .int n₁, h => simp [tagOf] at ht
                | .map lm, .bool b₁, h => simp [tagOf] at ht
                | .map lm, .null, h => simp [tagOf] at ht
                | .map lm, .list rl, h => simp [tagOf] at ht


theorem compareSt_shift_nil (acc : List DiffItem) (a b : Node) (q : List String) :
    compareSt acc a b q = (compareSt [] a b q).map (fun ds => acc ++ ds) :=
  compareSt_shift acc a b q

/-- Claim C5: every Change Record the comparator emits satisfies the
record invariant in full: an `Added` record has no old value and its new
value is a subtree carried from the right-hand document (obtained by the
normalize-and-descend steps of the comparator itself), a `Removed` record has no new
value and its old value is carried from the left-hand document, and a
`Modified` record carries a value from each side; moreover a type
mismatch between the two normalized sides always yields exactly the
single Modified record carrying both normalized subtrees, never a deeper
recursive diff. -/
theorem c5_record_shape {l r : Node} {p : List String} {out : List DiffItem}
    (h : compare l r p = some out) :
    (∀ d ∈ out, recordInv d = true ∧ carriedInv l r d) ∧
    (∀ ln rn : Node, normalize_data l = some ln → normalize_data r = some rn →
      tagOf ln ≠ tagOf rn → out = [⟨ChangeType.modified, p, some ln, some rn⟩]) := by
  constructor
  · intro d hd
    refine ⟨?h1, ?h2⟩
    · rcases compareF_inv _ _ _ _ _ _ h d hd with hacc | hinv
      · exact absurd hacc (List.not_mem_nil d)
      · exact hinv
    · rcases compareF_carried _ _ l r l r p _ (fun v hv => hv) (fun v hv => hv) h d hd
        with hacc | hinv
      · exact absurd hacc (List.not_mem_nil d)
      · exact hinv
  · intro ln rn hl hr ht
    have h2 := compare_tag_mismatch (p := p) hl hr ht
    rw [h] at h2
    injection h2

theorem c5_record_shape_witness :
    (∀ d ∈ ([⟨ChangeType.added, ["c"], none, some (Node.int 4)⟩,
        ⟨ChangeType.removed, ["b"], some (Node.int 2), none⟩,
        ⟨ChangeType.modified, ["a"], some (Node.int 1), some (Node.int 3)⟩] :
        List DiffItem),
      recordInv d = true ∧
        carriedInv (Node.map (mkNodeMap [("a", Node.int 1), ("b", Node.int 2)]))
          (Node.map (mkNodeMap [("a", Node.int 3), ("c", Node.int 4)])) d) ∧
    (∀ ln rn : Node,
      normalize_data (Node.map (mkNodeMap [("a", Node.int 1), ("b", Node.int 2)])) =
        some ln →
      normalize_data (Node.map (mkNodeMap [("a", Node.int 3), ("c", Node.int 4)])) =
        some rn →
      tagOf ln ≠ tagOf rn →
      ([⟨ChangeType.added, ["c"], none, some (Node.int 4)⟩,
        ⟨ChangeType.removed, ["b"], some (Node.int 2), none⟩,
        ⟨ChangeType.modified, ["a"], some (Node.int 1), some (Node.int 3)⟩] :
        List DiffItem) = [⟨ChangeType.modified, [], some ln, some rn⟩]) :=
  c5_record_shape rfl

/-- Claim C6: the amended emission order for mappings.  The Change Set
is ordered by phase, not by document traversal: all `Added` records (one
per key only on the right, as a multiset — the source iterates a
hash-randomized key set, so no within-phase order is asserted), then all
`Removed` records (one per key only on the left, as a multiset), and
only then the records of the common keys, each of which lives under a
path of a common key.  Additions are therefore not interleaved at their
traversal position (see the counterexample). -/
theorem c6_dict_phase_order (l r : Node) (p : List String) (lm rm : NodeMap)
    (hl : normalize_data l = some (Node.map lm))
    (hr : normalize_data r = some (Node.map rm))
    (out : List DiffItem) (h : compare l r p = some out) :
    ∃ A B C, out = A ++ B ++ C ∧
      A.Perm (mapAdds lm.pairs rm.pairs p) ∧
      B.Perm (mapRems lm.pairs rm.pairs p) ∧
      (∀ d ∈ A, d.change_type = ChangeType.added) ∧
      (∀ d ∈ B, d.change_type = ChangeType.removed) ∧
      (∀ d ∈ C, ∃ k, containsKey lm.pairs k = true ∧
        containsKey rm.pairs k = true ∧ ∃ t, d.path = p ++ (fieldSeg k :: t)) := by
  rw [compare_dict_unfold l r p lm rm hl hr] at h
  have hshift := compareFold_shift compareSt_shift_nil
    (dictCommons lm.pairs rm.pairs p)
    (mapAdds lm.pairs rm.pairs p ++ mapRems lm.pairs rm.pairs p) []
  rw [List.append_nil] at hshift
  rw [hshift] at h
  cases h0 : compareFold compareSt [] (dictCommons lm.pairs rm.pairs p) with
  | none => rw [h0] at h; simp at h
  | some C =>
      rw [h0] at h
      simp only [Option.map_some', Option.some.injEq] at h
      refine ⟨mapAdds lm.pairs rm.pairs p, mapRems lm.pairs rm.pairs p, C,
        h.symm, List.Perm.refl _, List.Perm.refl _, ?hA, ?hB, ?hC⟩
      · intro d hd
        obtain ⟨kv, hkv, he⟩ := mem_mapAdds hd
        subst he
        rfl
      · intro d hd
        obtain ⟨kv, hkv, he⟩ := mem_mapRems hd
        subst he
        rfl
      · intro d hd
        rcases compareFold_pred (P := fun e => ∃ k, containsKey lm.pairs k = true ∧
            containsKey rm.pairs k = true ∧ ∃ t, DiffItem.path e = p ++ (fieldSeg k :: t))
          (fun acc' a b q out' hm hc d hd => by
            obtain ⟨k, hka, hkb, hq⟩ := commonsAux_mem fieldSeg hm
            rcases compareF_path_prefix _ acc' a b q out' hc d hd with h3 | ⟨t, h3⟩
            · exact Or.inl h3
            · exact Or.inr ⟨k, containsKey_of_mem hka,
                containsKey_of_mem (alookup_mem hkb), t, by rw [h3, hq]; simp⟩)
          [] C h0 d hd with h2 | h2
        · exact absurd h2 (List.not_mem_nil d)
        · exact h2

theorem c6_dict_phase_order_witness :
    ∃ A B C,
      ([⟨ChangeType.added, ["b"], none, some (Node.int 3)⟩,
        ⟨ChangeType.modified, ["a"], some (Node.int 1), some (Node.int 2)⟩] :
        List DiffItem) = A ++ B ++ C ∧
      A.Perm (mapAdds (mkNodeMap [("a", Node.int 1)]).pairs
        (mkNodeMap [("a", Node.int 2), ("b", Node.int 3)]).pairs []) ∧
      B.Perm (mapRems (mkNodeMap [("a", Node.int 1)]).pairs
        (mkNodeMap [("a", Node.int 2), ("b", Node.int 3)]).pairs []) ∧
      (∀ d ∈ A, d.change_type = ChangeType.added) ∧
      (∀ d ∈ B, d.change_type = ChangeType.removed) ∧
      (∀ d ∈ C, ∃ k, containsKey (mkNodeMap [("a", Node.int 1)]).pairs k = true ∧
        containsKey (mkNodeMap [("a", Node.int 2), ("b", Node.int 3)]).pairs k = true ∧
        ∃ t, d.path = [] ++ (fieldSeg k :: t)) :=
  c6_dict_phase_order (Node.map (mkNodeMap [("a", Node.int 1)]))
    (Node.map (mkNodeMap [("a", Node.int 2), ("b", Node.int 3)])) []
    (mkNodeMap [("a", Node.int 1)]) (mkNodeMap [("a", Node.int 2), ("b", Node.int 3)])
    rfl rfl
    [⟨ChangeType.added, ["b"], none, some (Node.int 3)⟩,
      ⟨ChangeType.modified, ["a"], some (Node.int 1), some (Node.int 2)⟩]
    rfl

end Yd
